import Mathlib

set_option maxRecDepth 8192

namespace HamiltonianMPS

/-- Python-level exceptions raised (or propagated) by the MPS methods of
src/TensorNetwork/MPS/MPS.py. -/
inductive PyErr where
  | valueError : PyErr
  | typeError : PyErr
  | assertError : PyErr
  | stopIteration : PyErr
deriving DecidableEq

/-- Modelled from the spec: the Tensor/Label substrate
(HamiltonianPy.TensorNetwork.Tensor, whose source is not under src/).
Tensors are abstract values of a type T; the kernel provides the capabilities
the spec lists in section 6: contraction over matching legs (mul, the Python
operator on DTensor/STensor), the two svd splittings used by the bond-shift
primitives (svdL for svd with row equal to the left leg, svdR for svd with row
equal to the left and site legs; each returns the triple u, s, v, the discarded
truncation weight being dropped by the callers), the ftensordot product
(written x*(s,ftensordot) or (s,ftensordot)*v in the source), the direct sum
used by chain addition, the leg-merge used by coarse-graining, the label of
each of the three legs of a chain tensor and of the single leg of a 1d Lambda
tensor, and the scalar tensor DTensor 1.0 installed by reset. -/
structure Kern (T : Type) where
  mul : T → T → T
  svdL : T → T × T × T
  svdR : T → T × T × T
  ftm : T → T → T
  dsum : T → T → T
  mergeT : T → ℕ → T
  labL : T → ℕ
  labS : T → ℕ
  labR : T → ℕ
  lab1 : T → ℕ
  one : T

/-- The state of an MPS object as kept by the class in
src/TensorNetwork/MPS/MPS.py: the list of 3-leg chain tensors (the list
contents of the MPS, which subclasses list), the optional singular-value tensor
Lambda, and the optional cut position. -/
structure MPS (T : Type) where
  ms : List T
  Lambda : Option T
  cut : Option ℕ
deriving DecidableEq

variable {T : Type}

/-- MPS.__init__ in its sites=None form: the assert that Lambda and cut are
given together, and the assert 0<=cut<=len(ms); an assertion failure is an
error. -/
def mkMPS (ms : List T) (Lambda : Option T) (cut : Option ℤ) :
    Except PyErr (MPS T) :=
  match Lambda, cut with
  | none, none => .ok ⟨ms, none, none⟩
  | some lam, some c =>
      if 0 ≤ c ∧ c ≤ (ms.length : ℤ) then .ok ⟨ms, some lam, some c.toNat⟩
      else .error .assertError
  | _, _ => .error .assertError

/-- MPS._merge_ABL_ with its default argument merge=R, the only form the
methods under verification use: merge Lambda into the tensor on its right
(on its left when the cut is at the right boundary), clear cut and Lambda, and
return the original neighbouring tensor and the original Lambda. -/
def mergeABL (K : Kern T) (mps : MPS T) : MPS T × Option T × Option T :=
  match mps.cut, mps.Lambda with
  | some c, some lam =>
      if c = mps.ms.length then
        let m := mps.ms.getD (c - 1) K.one
        (⟨mps.ms.set (c - 1) (K.mul m lam), none, none⟩, some m, some lam)
      else
        let m := mps.ms.getD c K.one
        (⟨mps.ms.set c (K.mul lam m), none, none⟩, some m, some lam)
  | _, _ => (mps, none, none)

/-- The table property of the mps: the dict from the site label of each chain
tensor to its index; as in a Python dict comprehension, a later index wins for
a repeated site label. Lookup of an absent key is modelled by the default 0
(the theorems only use it under a presence hypothesis). -/
def tablePos (K : Kern T) (ms : List T) (s : ℕ) : ℕ :=
  (ms.enum).foldl (fun acc p => if K.labS p.2 = s then p.1 else acc) 0

/-- MPS._set_ABL_: when both arguments are tensors, put the tensor back at the
position its site label has in the table, install Lambda, and set the cut to
that position or its successor according to which virtual leg of the tensor
carries the label of Lambda; with a label mismatch the method raises only
after the tensor and Lambda have been written back. -/
def setABL (K : Kern T) (mps : MPS T) :
    Option T → Option T → MPS T × Option PyErr
  | some m, some lam =>
      let pos := tablePos K mps.ms (K.labS m)
      let ms' := mps.ms.set pos m
      if K.lab1 lam = K.labL m then (⟨ms', some lam, some pos⟩, none)
      else if K.lab1 lam = K.labR m then (⟨ms', some lam, some (pos + 1)⟩, none)
      else (⟨ms', some lam, mps.cut⟩, some .valueError)
  | _, _ => (mps, none)

/-- MPS.reset: merge any existing center away, then install the scalar tensor
DTensor 1.0 as Lambda at the requested cut when that cut is in range, raise
ValueError when it is not, and leave the chain center-free when the requested
cut is None. The mutated state is returned alongside the error, because a
Python exception leaves the already-performed mutation in place. -/
def reset (K : Kern T) (cut : Option ℤ) (mps : MPS T) : MPS T × Option PyErr :=
  let m1 := (mergeABL K mps).1
  match cut with
  | none => (m1, none)
  | some c =>
      if 0 ≤ c ∧ c ≤ (m1.ms.length : ℤ) then
        (⟨m1.ms, some K.one, some c.toNat⟩, none)
      else (m1, some .valueError)

/-- One leftward bond shift: the body of the loop of MPS.__ilshift__, which
feeds self[cut-1]*Lambda to MPS._set_B_and_lmove_. The move raises ValueError
when the cut is already 0 (before mutating anything), and otherwise replaces
self[cut-1] by the v factor of the svd, pushes u into self[cut-2] (into Lambda
via ftensordot when cut is 1), sets Lambda to s and decrements the cut.
Label-only relabel calls of the source are not modelled. A chain without a
center triggers the TypeError that Python arithmetic on None raises. -/
def shiftLeft1 (K : Kern T) (mps : MPS T) : MPS T × Option PyErr :=
  match mps.cut, mps.Lambda with
  | some c, some lam =>
      if c = 0 then (mps, some .valueError)
      else
        let M := K.mul (mps.ms.getD (c - 1) K.one) lam
        let usv := K.svdL M
        let ms1 := mps.ms.set (c - 1) usv.2.2
        if c = 1 then
          (⟨ms1, some (K.ftm usv.1 usv.2.1), some (c - 1)⟩, none)
        else
          let ms2 := ms1.set (c - 2) (K.mul (ms1.getD (c - 2) K.one) usv.1)
          (⟨ms2, some usv.2.1, some (c - 1)⟩, none)
  | _, _ => (mps, some .typeError)

/-- One rightward bond shift: the body of the loop of MPS.__irshift__, which
feeds Lambda*self[cut] to MPS._set_A_and_rmove_. The move raises ValueError
when the cut is already nsite, and otherwise replaces self[cut] by the u factor
of the svd, pushes v into self[cut+1] (into Lambda via ftensordot when cut is
nsite-1), sets Lambda to s and increments the cut. -/
def shiftRight1 (K : Kern T) (mps : MPS T) : MPS T × Option PyErr :=
  match mps.cut, mps.Lambda with
  | some c, some lam =>
      if c = mps.ms.length then (mps, some .valueError)
      else
        let M := K.mul lam (mps.ms.getD c K.one)
        let usv := K.svdR M
        let ms1 := mps.ms.set c usv.1
        if c = mps.ms.length - 1 then
          (⟨ms1, some (K.ftm usv.2.1 usv.2.2), some (c + 1)⟩, none)
        else
          let ms2 := ms1.set (c + 1) (K.mul usv.2.2 (ms1.getD (c + 1) K.one))
          (⟨ms2, some usv.2.1, some (c + 1)⟩, none)
  | _, _ => (mps, some .typeError)

/-- Sequencing of mutating steps under Python exception flow: once a step has
raised, later steps do not run and the state mutated so far is kept. -/
def bindS (st : MPS T × Option PyErr) (f : MPS T → MPS T × Option PyErr) :
    MPS T × Option PyErr :=
  match st with
  | (m, none) => f m
  | (m, some e) => (m, some e)

/-- A for-loop of k identical mutating steps, as in the bodies of
MPS.__ilshift__; an exception aborts the remaining iterations. -/
def runSteps (f : MPS T → MPS T × Option PyErr) : ℕ → MPS T → MPS T × Option PyErr
  | 0, m => (m, none)
  | k + 1, m => bindS (f m) (runSteps f k)

/-- MPS.__ilshift__ with an integer argument and no truncation: k leftward
moves for k nonnegative, -k rightward moves otherwise. -/
def ilshift (K : Kern T) (k : ℤ) (mps : MPS T) : MPS T × Option PyErr :=
  if 0 ≤ k then runSteps (shiftLeft1 K) k.toNat mps
  else runSteps (shiftRight1 K) (-k).toNat mps

/-- MPS.__irshift__ with an integer argument: delegates to __ilshift__ with the
negated count. -/
def irshift (K : Kern T) (k : ℤ) (mps : MPS T) : MPS T × Option PyErr :=
  ilshift K (-k) mps

/-- MPS.canonicalize with no truncation: when the target cut is at most
nsite/2 (Python floor division), reset the center to nsite, shift left nsite
times, then shift right to the target; otherwise reset the center to 0, shift
right nsite times, then shift left nsite-cut times. -/
def canonicalize (K : Kern T) (c : ℕ) (mps : MPS T) : MPS T × Option PyErr :=
  if c ≤ mps.ms.length / 2 then
    bindS (reset K (some (mps.ms.length : ℤ)) mps) (fun m1 =>
      bindS (ilshift K (mps.ms.length : ℤ) m1) (fun m2 =>
        irshift K (c : ℤ) m2))
  else
    bindS (reset K (some 0) mps) (fun m1 =>
      bindS (irshift K (mps.ms.length : ℤ) m1) (fun m2 =>
        ilshift K ((mps.ms.length : ℤ) - (c : ℤ)) m2))

/-- The algorithm of claim C4 taken at its word, for comparison with the code:
a target cut in the left half first gets a full rightward sweep bringing the
cut to nsite and then a leftward sweep back to the target; a target in the
right half gets the mirror. -/
def canonicalizeSpecC4 (K : Kern T) (c : ℕ) (mps : MPS T) :
    MPS T × Option PyErr :=
  if c ≤ mps.ms.length / 2 then
    bindS (reset K (some 0) mps) (fun m1 =>
      bindS (irshift K (mps.ms.length : ℤ) m1) (fun m2 =>
        ilshift K ((mps.ms.length : ℤ) - (c : ℤ)) m2))
  else
    bindS (reset K (some (mps.ms.length : ℤ)) mps) (fun m1 =>
      bindS (ilshift K (mps.ms.length : ℤ) m1) (fun m2 =>
        irshift K (c : ℤ) m2))

/-- The cut positions reached after each successful step of a k-step sweep;
a failing step contributes the state it leaves behind and ends the trace. -/
def traceCuts (f : MPS T → MPS T × Option PyErr) : ℕ → MPS T → List (Option ℕ)
  | 0, _ => []
  | k + 1, m =>
      match f m with
      | (m', none) => m'.cut :: traceCuts f k m'
      | (m', some _) => [m'.cut]

/-- The center invariant of claim C7: either the chain is center-free (cut
undefined and Lambda absent) or the cut is a defined position in [0, nsite]
and Lambda is present. -/
def centerInv (mps : MPS T) : Prop :=
  (mps.cut = none ∧ mps.Lambda = none) ∨
    (∃ c lam, mps.cut = some c ∧ c ≤ mps.ms.length ∧ mps.Lambda = some lam)

/-- MPS.__add__ on two distinct chains: merge the center of each, build the
sum chain from the tensorwise direct sums with no center, then write the saved
tensor and Lambda of each operand back through MPS._set_ABL_. The result
triple is (sum, self afterwards, other afterwards). -/
def addMPS (K : Kern T) (a b : MPS T) : MPS T × MPS T × MPS T :=
  let pa := mergeABL K a
  let pb := mergeABL K b
  let ms := List.zipWith K.dsum pa.1.ms pb.1.ms
  (⟨ms, none, none⟩,
   (setABL K pa.1 pa.2.1 pa.2.2).1,
   (setABL K pb.1 pb.2.1 pb.2.2).1)

/-- MPS.__add__ when self is other: the center is merged and restored once.
The result pair is (sum, self afterwards). -/
def addSelf (K : Kern T) (a : MPS T) : MPS T × MPS T :=
  let pa := mergeABL K a
  let ms := List.zipWith K.dsum pa.1.ms pa.1.ms
  (⟨ms, none, none⟩, (setABL K pa.1 pa.2.1 pa.2.2).1)

/-- The product of a list of tensors in order, as np.product of a tensor list
contracts them in sequence; the empty product is the scalar tensor. -/
def prodT (K : Kern T) : List T → T
  | [] => K.one
  | x :: xs => xs.foldl K.mul x

/-- MPS.state without the boundary reshapes (which only reorganize the data of
the resulting tensor): the contraction of all chain tensors, with Lambda
inserted between the A part self[0:cut] and the B part self[cut:nsite] when a
center is present. An empty contraction is not modelled, hence the Option. -/
def stateOf (K : Kern T) (mps : MPS T) : Option T :=
  match mps.cut with
  | none =>
      match mps.ms with
      | [] => none
      | x :: xs => some (xs.foldl K.mul x)
  | some c =>
      match mps.ms.take c ++ mps.Lambda.toList ++ mps.ms.drop c with
      | [] => none
      | x :: xs => some (xs.foldl K.mul x)

/-- Modelled from the spec: the iterated decomposition expanded_svd of the
Tensor substrate, in the three call shapes MPS.from_state uses. With cut 0 it
returns (u, s, train), with cut len(sites) it returns (train, s, v), and with
an interior cut it returns (train, Lambda). Truncation parameters are absent
because the round-trip claim fixes nmax=None and tol=None. -/
structure FSKern (T : Type) where
  esvd0 : T → T × T × List T
  esvdN : T → List T × T × T
  esvdM : T → ℕ → List T × T

/-- MPS.from_state with no truncation, with the reshape of the flat vector
into a 3-leg tensor and the relabel calls (label bookkeeping) not modelled:
the three branches on the cut build the chain tensors and Lambda from the
expanded svd of the input, merging s into u (resp. v) by ftensordot at the
left (resp. right) boundary. -/
def fromState (K : Kern T) (E : FSKern T) (v : T) (nsites : ℕ) (c : ℕ) :
    MPS T :=
  if c = 0 then
    let r := E.esvd0 v
    ⟨r.2.2, some (K.ftm r.1 r.2.1), some 0⟩
  else if c = nsites then
    let r := E.esvdN v
    ⟨r.1, some (K.ftm r.2.1 r.2.2), some nsites⟩
  else
    let r := E.esvdM v c
    ⟨r.1, some r.2, some c⟩

/-- Modelled from the spec: the narrow query interface of the degrees-of-
freedom tree (DegFreTree, an external collaborator per spec section 2): the
number of named layers, the level of a site identifier, the ordered descendant
identifiers of an identifier at a generation depth, the position table of a
layer, and the ordered site identifiers of a layer. -/
structure DegFres where
  nlayers : ℕ
  level : ℕ → ℕ
  descendants : ℕ → ℕ → List ℕ
  tableAt : ℕ → ℕ → ℕ
  sitesAt : ℕ → List ℕ

/-- Modelled from the spec: expanded_svd in the call shape of the fine-graining
branch of MPS.relayer, splitting one tensor into the train of tensors of the
site range [start, stop) plus the trailing factors s and v. -/
structure EKern (T : Type) where
  esvd : T → ℕ → ℕ → List T × T × T

/-- The loop body of the fine-graining branch of MPS.relayer: the pending s
and v of the previous split are contracted into the next tensor, the tensor is
split over the positions of its descendants at the target layer, and the
produced train is appended. -/
def fineStep (K : Kern T) (E : EKern T) (D : DegFres) (new old : ℕ)
    (acc : List T × Option (T × T)) (m0 : T) : List T × Option (T × T) :=
  let m := match acc.2 with
    | none => m0
    | some sv => K.mul (K.mul sv.1 sv.2) m0
  let ids := D.descendants (K.labS m) (new - old)
  let start := D.tableAt new (ids.headD 0)
  let stop := D.tableAt new (ids.getLastD 0) + 1
  let r := E.esvd m start stop
  (acc.1 ++ r.1, some (r.2.1, r.2.2))

/-- MPS.relayer with no truncation, returning the new chain together with the
input chain as it is left afterwards. The layer argument is the integer form;
the assert on its range fails as an error, an empty chain fails with the
StopIteration of next(iter(self)), and an equal target layer returns a copy.
Otherwise the center is merged away; coarse-graining contracts, for each
target-layer site, the run of tensors of its descendant positions and merges
their inner legs, and returns a chain with no center; fine-graining splits
each tensor by expanded_svd, carries s and v into the next tensor, and returns
a chain whose cut is the number of new tensors with Lambda the trailing
ftensordot product s*v; finally the saved tensor and Lambda are written back
into the input chain through MPS._set_ABL_. Relabel calls are not modelled. -/
def relayer (K : Kern T) (E : EKern T) (D : DegFres) (mps : MPS T)
    (layer : ℕ) : Except PyErr (MPS T × MPS T) :=
  if layer < D.nlayers then
    match mps.ms with
    | [] => .error .stopIteration
    | m0 :: _ =>
        let old := D.level (K.labS m0) - 1
        if layer = old then .ok (mps, mps)
        else
          let p := mergeABL K mps
          let after := (setABL K p.1 p.2.1 p.2.2).1
          if layer < old then
            let Ms := (D.sitesAt layer).map (fun site =>
              let idxs := D.descendants site (old - layer)
              let M := prodT K (idxs.map (fun i =>
                p.1.ms.getD (D.tableAt old i) K.one))
              K.mergeT M site)
            .ok (⟨Ms, none, none⟩, after)
          else
            let r := p.1.ms.foldl (fineStep K E D layer old) ([], none)
            match r.2 with
            | some sv =>
                .ok (⟨r.1, some (K.ftm sv.1 sv.2), some r.1.length⟩, after)
            | none => .error .stopIteration
  else .error .assertError

/-- Modelled from the spec: a dense 3-leg chain tensor with explicit leg
dimensions and entries in a commutative ring (the float entries of the code
idealized to exact arithmetic); entries outside the leg ranges are never
read. -/
structure NT (R : Type) where
  nl : ℕ
  nd : ℕ
  nr : ℕ
  e : ℕ → ℕ → ℕ → R

/-- Modelled from the spec: the result of the decomposition primitive of the
substrate on a tensor whose row group is the left and site legs (the svd call
of MPS._set_A_and_rmove_): the left factor u, the singular values s, the right
factor v and the new bond dimension k. -/
structure SVDOut (R : Type) where
  u : ℕ → ℕ → ℕ → R
  s : ℕ → R
  v : ℕ → ℕ → R
  k : ℕ

variable {R : Type} [CommRing R]

/-- The contract the spec assigns to the decomposition primitive when no
truncation is requested: exact reconstruction, a left factor with orthonormal
columns and a right factor with orthonormal rows. -/
def svdContract (sv : NT R → SVDOut R) (M : NT R) : Prop :=
  (∀ a < M.nl, ∀ i < M.nd, ∀ b < M.nr,
    M.e a i b =
      ∑ j ∈ Finset.range (sv M).k, (sv M).u a i j * (sv M).s j * (sv M).v j b) ∧
  (∀ j < (sv M).k, ∀ j' < (sv M).k,
    ∑ a ∈ Finset.range M.nl, ∑ i ∈ Finset.range M.nd,
      (sv M).u a i j * (sv M).u a i j' = if j = j' then 1 else 0) ∧
  (∀ j < (sv M).k, ∀ j' < (sv M).k,
    ∑ b ∈ Finset.range M.nr, (sv M).v j b * (sv M).v j' b =
      if j = j' then 1 else 0)

/-- The bra-ket contraction of a chain suffix with itself, with the pair of
left legs open: rEnv ms b b' sums, over all physical indices, the product of
the matrix-element path starting at left index b with the one starting at b',
the right boundary pair being contracted against each other. -/
def rEnv : List (NT R) → ℕ → ℕ → R
  | [], b, b' => if b = b' then 1 else 0
  | m :: ms, b, b' =>
      ∑ i ∈ Finset.range m.nd, ∑ c ∈ Finset.range m.nr,
        ∑ c' ∈ Finset.range m.nr, m.e b i c * m.e b' i c' * rEnv ms c c'

/-- One site of the loop of MPS.overlap: the accumulated environment tensor,
open on the pair of right bond legs of the processed prefix, is contracted
with the tensor of mps1 and the conjugated tensor of mps2 (equal over a real
ring for overlap of a chain with itself); the label mechanics of the source
(prime flags blocking bra-ket bond contraction, boundary primes restored so
the boundary legs close) reduce to this transfer recursion. -/
def envStep (E : ℕ → ℕ → R) (m : NT R) : ℕ → ℕ → R := fun b b' =>
  ∑ a ∈ Finset.range m.nl, ∑ a' ∈ Finset.range m.nl,
    ∑ i ∈ Finset.range m.nd, E a a' * m.e a i b * m.e a' i b'

/-- The loop of MPS.overlap over a center-free chain contracted with itself,
with the final contraction of the pair of right boundary legs. -/
def ovlAux : (ℕ → ℕ → R) → ℕ → List (NT R) → R
  | E, d, [] => ∑ b ∈ Finset.range d, E b b
  | E, _, m :: ms => ovlAux (envStep E m) m.nr ms

/-- MPS.overlap of a chain with itself after both copies have been merged
center-free: the initial environment is the contraction of the two left
boundary legs against each other. -/
def ovl (ms : List (NT R)) : R :=
  ovlAux (fun a a' => if a = a' then 1 else 0) 1 ms

/-- The tensor fed to the next svd of the rightward sweep of MPS.norm: Lambda
(the singular values s, acting diagonally on the shared bond) times v times
the next chain tensor. -/
def mkM2 (sv : NT R → SVDOut R) (M m : NT R) : NT R :=
  ⟨(sv M).k, m.nd, m.nr, fun j i c =>
    (sv M).s j * ∑ b ∈ Finset.range m.nl, (sv M).v j b * m.e b i c⟩

/-- The rightward sweep of MPS.norm from MPS._set_A_and_rmove_: each step
decomposes the current boundary tensor and carries s and v into the next
tensor; at the last site the returned value is the entry of the final Lambda,
the ftensordot product of s and v, at the dimension-1 right boundary. -/
def sweepAux (sv : NT R → SVDOut R) : NT R → List (NT R) → R
  | M, [] => ∑ j ∈ Finset.range (sv M).k, (sv M).s j * (sv M).v j 0
  | M, m :: rest => sweepAux sv (mkM2 sv M m) rest

/-- The tensors fed to the decomposition primitive during the rightward sweep
of MPS.norm. -/
def sweepCalls (sv : NT R → SVDOut R) : NT R → List (NT R) → List (NT R)
  | M, [] => [M]
  | M, m :: rest => M :: sweepCalls sv (mkM2 sv M m) rest

/-- The numeric state of an MPS: the chain tensors, the optional singular
values on the cut bond (a 1-leg diagonal tensor, modelled as its vector of
entries) and the optional cut. -/
structure NChain (R : Type) where
  ms : List (NT R)
  lam : Option (ℕ → R)
  cut : Option ℕ

/-- Diagonal action of a 1-leg Lambda tensor on the left leg of a chain
tensor, the product Lambda*m of the source. -/
def scaleL (l : ℕ → R) (m : NT R) : NT R :=
  ⟨m.nl, m.nd, m.nr, fun a i b => l a * m.e a i b⟩

/-- Diagonal action of a 1-leg Lambda tensor on the right leg of a chain
tensor, the product m*Lambda of the source. -/
def scaleR (l : ℕ → R) (m : NT R) : NT R :=
  ⟨m.nl, m.nd, m.nr, fun a i b => m.e a i b * l b⟩

/-- MPS._merge_ABL_ in the numeric model: Lambda is scaled into its right
neighbour, or into its left neighbour at the right boundary. -/
def nMerge (ch : NChain R) : List (NT R) :=
  match ch.cut, ch.lam with
  | some c, some l =>
      if c = ch.ms.length then
        ch.ms.set (c - 1) (scaleR l (ch.ms.getD (c - 1) ⟨1, 1, 1, fun _ _ _ => 0⟩))
      else
        ch.ms.set c (scaleL l (ch.ms.getD c ⟨1, 1, 1, fun _ _ _ => 0⟩))
  | _, _ => ch.ms

/-- MPS.overlap of a chain with itself: both copies are merged center-free
(the dagger of the second copy acting as the identity on the entries over a
real ring) and the transfer loop is run. -/
def overlapSelf (ch : NChain R) : R := ovl (nMerge ch)

/-- The MPS.norm query: a copy of the chain is reset to a trivial center at 0
and swept fully to the right; the value is the entry of the final Lambda. The
initial scalar Lambda of reset makes the first decomposed tensor the first
chain tensor itself. An empty chain keeps the scalar Lambda 1.0 of reset. -/
def normVal (sv : NT R → SVDOut R) (ch : NChain R) : R :=
  match nMerge ch with
  | [] => 1
  | m :: rest => sweepAux sv m rest

/-- Adjacent chain tensors share a bond: the right dimension of each tensor is
the left dimension of its successor. -/
def chainOK : List (NT R) → Prop
  | [] => True
  | [_] => True
  | m :: m' :: ms => m.nr = m'.nl ∧ chainOK (m' :: ms)

/-- The left boundary dimension of a chain. -/
def headL : List (NT R) → ℕ
  | [] => 1
  | m :: _ => m.nl

/-- The right boundary dimension of a chain. -/
def lastR : List (NT R) → ℕ
  | [] => 1
  | [m] => m.nr
  | _ :: m :: ms => lastR (m :: ms)

/-- The left dimension of the head of a chain, with a default for the empty
chain. -/
def headDim (d : ℕ) : List (NT R) → ℕ
  | [] => d
  | m :: _ => m.nl

/-- The tensors fed to the decomposition primitive during the norm query of a
chain: the sweep starts on the merged, center-free copy. -/
def normCalls (sv : NT R → SVDOut R) (ch : NChain R) : List (NT R) :=
  match nMerge ch with
  | [] => []
  | m :: rest => sweepCalls sv m rest

/-- The collapse of an existing center as claims C6 and C10 describe it:
Lambda merged into its right neighbouring tensor, or into the left neighbour
when the cut is at the right boundary; a center-free chain is unchanged. -/
def mergedMs (K : Kern T) (mps : MPS T) : List T :=
  match mps.cut, mps.Lambda with
  | some c0, some lam =>
      if c0 = mps.ms.length then
        mps.ms.set (c0 - 1) (K.mul (mps.ms.getD (c0 - 1) K.one) lam)
      else mps.ms.set c0 (K.mul lam (mps.ms.getD c0 K.one))
  | _, _ => mps.ms

/-- The label coherence a well-formed chain with a center has: a nonempty
tensor list, pairwise distinct site labels, a Lambda label matching the
virtual leg at the cut, and site labels preserved by contraction with
Lambda. -/
def restoreOK (K : Kern T) (a : MPS T) : Prop :=
  ∀ c lam, a.cut = some c → a.Lambda = some lam →
    a.ms ≠ [] ∧
    (∀ i j, i < a.ms.length → j < a.ms.length →
      K.labS (a.ms.getD i K.one) = K.labS (a.ms.getD j K.one) → i = j) ∧
    (c = a.ms.length →
      K.lab1 lam = K.labR (a.ms.getD (c - 1) K.one) ∧
      K.lab1 lam ≠ K.labL (a.ms.getD (c - 1) K.one) ∧
      K.labS (K.mul (a.ms.getD (c - 1) K.one) lam) =
        K.labS (a.ms.getD (c - 1) K.one)) ∧
    (c ≠ a.ms.length →
      K.lab1 lam = K.labL (a.ms.getD c K.one) ∧
      K.labS (K.mul lam (a.ms.getD c K.one)) = K.labS (a.ms.getD c K.one))

/-- A concrete tensor for witnesses: the three leg labels and a payload
standing for the numeric data. -/
structure WT where
  tL : ℕ
  tS : ℕ
  tR : ℕ
  pay : ℕ
deriving DecidableEq

/-- A concrete substrate kernel over the witness tensors, with injective
enough payload arithmetic to separate differing contraction orders. -/
def WK : Kern WT where
  mul a b := ⟨a.tL, a.tS + b.tS, b.tR, 2 * a.pay + 3 * b.pay + 1⟩
  svdL M := (⟨M.tL, 0, 900, 5 * M.pay + 1⟩, ⟨900, 0, 900, 5 * M.pay + 2⟩,
             ⟨900, M.tS, M.tR, 5 * M.pay + 3⟩)
  svdR M := (⟨M.tL, M.tS, 901, 7 * M.pay + 1⟩, ⟨901, 0, 901, 7 * M.pay + 2⟩,
             ⟨901, 0, M.tR, 7 * M.pay + 3⟩)
  ftm a b := ⟨a.tL, 0, b.tR, 11 * a.pay + 13 * b.pay + 4⟩
  dsum a b := ⟨a.tL, a.tS, b.tR, a.pay + b.pay + 6⟩
  mergeT m s := ⟨m.tL, s, m.tR, m.pay + 8⟩
  labL := WT.tL
  labS := WT.tS
  labR := WT.tR
  lab1 := WT.tL
  one := ⟨0, 0, 0, 1⟩

/-- A three-site witness chain with its center at cut 2. -/
def mpsW3 : MPS WT :=
  ⟨[⟨10, 1, 11, 100⟩, ⟨11, 2, 12, 101⟩, ⟨12, 3, 13, 102⟩],
   some ⟨12, 0, 12, 50⟩, some 2⟩

/-- A two-site witness chain with its center at the left boundary. -/
def mpsCut0 : MPS WT :=
  ⟨[⟨10, 1, 11, 100⟩, ⟨11, 2, 12, 101⟩], some ⟨10, 0, 10, 51⟩, some 0⟩

/-- A two-site witness chain with its center at the right boundary. -/
def mpsCutN : MPS WT :=
  ⟨[⟨10, 1, 11, 100⟩, ⟨11, 2, 12, 101⟩], some ⟨12, 0, 12, 52⟩, some 2⟩

/-- A center-free two-site witness chain. -/
def mps2W : MPS WT := ⟨[⟨10, 1, 11, 100⟩, ⟨11, 2, 12, 101⟩], none, none⟩

/-- A substrate kernel over bare natural numbers for the round-trip witness:
contraction is multiplication. -/
def KN : Kern ℕ where
  mul a b := a * b
  svdL m := (m, 1, 1)
  svdR m := (m, 1, 1)
  ftm a b := a * b
  dsum a b := a + b
  mergeT m _ := m
  labL _ := 0
  labS m := m
  labR _ := 0
  lab1 _ := 0
  one := 1

/-- A concrete expanded svd for the round-trip witness, reconstructing its
input exactly in each of the three call shapes. -/
def FSW : FSKern ℕ where
  esvd0 v := (v, 1, [1, 1])
  esvdN v := ([1, v], 1, 1)
  esvdM v _ := ([v, 1], 1)

/-- A one-layer degrees-of-freedom tree whose single layer is the layer of the
site labels themselves, for the identity-relayer witness. -/
def D8 : DegFres where
  nlayers := 1
  level _ := 1
  descendants _ _ := []
  tableAt _ _ := 0
  sitesAt _ := []

/-- A single-site witness chain whose site lives on layer 0 of D8. -/
def mps8 : MPS WT := ⟨[⟨10, 1, 11, 100⟩], none, none⟩

/-- A two-layer degrees-of-freedom tree splitting site 5 into sites 6 and 7,
for the fine-graining counterexample. -/
def D9 : DegFres where
  nlayers := 2
  level _ := 1
  descendants s g := if s = 5 ∧ g = 1 then [6, 7] else []
  tableAt _ s := if s = 7 then 1 else 0
  sitesAt _ := [6, 7]

/-- A concrete expanded svd for the fine-graining counterexample, splitting a
tensor into two factors. -/
def W9E : EKern WT where
  esvd m _ _ := ([⟨m.tL, 6, 70, m.pay + 1⟩, ⟨70, 7, m.tR, m.pay + 2⟩],
                 ⟨71, 0, 71, m.pay + 3⟩, ⟨71, 0, m.tR, m.pay + 4⟩)

/-- A center-free single-site chain carrying site 5, to be fine-grained. -/
def mps9 : MPS WT := ⟨[⟨20, 5, 21, 30⟩], none, none⟩

/-- The first tensor of the numeric witness chain: the qubit state (1,0) as a
1 x 2 x 1 tensor. -/
def nw1 : NT ℤ := ⟨1, 2, 1, fun _ i _ => if i = 0 then 1 else 0⟩

/-- The second tensor of the numeric witness chain: the qubit state (0,1). -/
def nw2 : NT ℤ := ⟨1, 2, 1, fun _ i _ => if i = 1 then 1 else 0⟩

/-- The numeric witness chain, a center-free two-qubit product state. -/
def ch5 : NChain ℤ := ⟨[nw1, nw2], none, none⟩

/-- A decomposition primitive over the integers that satisfies the svd
contract on every unit-norm tensor with a dimension-1 right leg, as the sweep
over the witness chain only produces. -/
def svW : NT ℤ → SVDOut ℤ := fun M =>
  ⟨fun a i j => if j = 0 then M.e a i 0 else 0,
   fun _ => 1,
   fun j b => if j = 0 ∧ b = 0 then 1 else 0,
   1⟩

theorem getD_set_ne {α : Type} (l : List α) (i j : ℕ) (x d : α) (h : i ≠ j) :
    (l.set i x).getD j d = l.getD j d := by
  induction l generalizing i j with
  | nil => rfl
  | cons a l ih =>
      cases i with
      | zero => cases j with
          | zero => exact absurd rfl h
          | succ j => rfl
      | succ i => cases j with
          | zero => rfl
          | succ j => exact ih i j (fun hij => h (by omega))

theorem getD_set_self {α : Type} (l : List α) (i : ℕ) (x d : α)
    (h : i < l.length) : (l.set i x).getD i d = x := by
  induction l generalizing i with
  | nil => simp at h
  | cons a l ih =>
      cases i with
      | zero => rfl
      | succ i => exact ih i (by simpa using h)

theorem set_getD_self {α : Type} (l : List α) (i : ℕ) (d : α) :
    l.set i (l.getD i d) = l := by
  induction l generalizing i with
  | nil => rfl
  | cons a l ih =>
      cases i with
      | zero => rfl
      | succ i => simpa using ih i

theorem foldl_mul_hom (K : Kern T)
    (hassoc : ∀ a b d : T, K.mul (K.mul a b) d = K.mul a (K.mul b d)) :
    ∀ (l : List T) (a x : T),
      l.foldl K.mul (K.mul a x) = K.mul a (l.foldl K.mul x) := by
  intro l
  induction l with
  | nil => intro a x; rfl
  | cons y l ih =>
      intro a x
      show l.foldl K.mul (K.mul (K.mul a x) y) = _
      rw [hassoc, ih]
      rfl

theorem foldl_mul_from (K : Kern T)
    (hassoc : ∀ a b d : T, K.mul (K.mul a b) d = K.mul a (K.mul b d))
    (l : List T) (a : T) (h : l ≠ []) :
    l.foldl K.mul a = K.mul a (prodT K l) := by
  cases l with
  | nil => exact absurd rfl h
  | cons x xs =>
      show xs.foldl K.mul (K.mul a x) = _
      rw [foldl_mul_hom K hassoc]
      rfl

theorem stateOf_center_list (K : Kern T) (ms : List T) (lam : T) (c : ℕ)
    (x : T) (xs : List T) (h : ms.take c ++ [lam] ++ ms.drop c = x :: xs) :
    stateOf K ⟨ms, some lam, some c⟩ = some (xs.foldl K.mul x) := by
  show (match ms.take c ++ (some lam).toList ++ ms.drop c with
        | [] => none
        | x :: xs => some (xs.foldl K.mul x)) = _
  rw [Option.toList_some, h]

/-- C1: for every state vector with compatible labels and every cut in
[0, len(sites)], the chain MPS.from_state builds with no truncation converts
back, through the state property, to the original vector. The expanded svd of
the substrate is modelled from the spec as exactly reconstructing: each
branch hypothesis states that the product of the returned factors, with the
singular values merged by ftensordot at the boundaries, is the input. -/
theorem c1_from_state_roundtrip (K : Kern T) (E : FSKern T) (v : T)
    (nsites c : ℕ)
    (hassoc : ∀ a b d : T, K.mul (K.mul a b) d = K.mul a (K.mul b d))
    (hpos : 0 < nsites) (hc : c ≤ nsites)
    (h0 : c = 0 → (E.esvd0 v).2.2 ≠ [] ∧
      K.mul (K.ftm (E.esvd0 v).1 (E.esvd0 v).2.1) (prodT K (E.esvd0 v).2.2) = v)
    (hN : c = nsites → (E.esvdN v).1 ≠ [] ∧ (E.esvdN v).1.length = nsites ∧
      K.mul (prodT K (E.esvdN v).1) (K.ftm (E.esvdN v).2.1 (E.esvdN v).2.2) = v)
    (hM : 0 < c → c < nsites → (E.esvdM v c).1.length = nsites ∧
      K.mul (prodT K ((E.esvdM v c).1.take c))
        (K.mul (E.esvdM v c).2 (prodT K ((E.esvdM v c).1.drop c))) = v) :
    stateOf K (fromState K E v nsites c) = some v := by
  by_cases hc0 : c = 0
  · obtain ⟨hne, hrec⟩ := h0 hc0
    rw [fromState, if_pos hc0]
    obtain ⟨m0, rest, hms⟩ : ∃ m0 rest, (E.esvd0 v).2.2 = m0 :: rest := by
      cases hl : (E.esvd0 v).2.2 with
      | nil => exact absurd hl hne
      | cons a l => exact ⟨a, l, rfl⟩
    rw [stateOf_center_list K _ _ 0 (K.ftm (E.esvd0 v).1 (E.esvd0 v).2.1)
      ((E.esvd0 v).2.2) (by simp)]
    rw [hms, foldl_mul_from K hassoc _ _ (by simp)]
    rw [← hms, hrec]
  · by_cases hcN : c = nsites
    · obtain ⟨hne, hlen, hrec⟩ := hN hcN
      rw [fromState, if_neg hc0, if_pos hcN]
      obtain ⟨m0, rest, hms⟩ : ∃ m0 rest, (E.esvdN v).1 = m0 :: rest := by
        cases hl : (E.esvdN v).1 with
        | nil => exact absurd hl hne
        | cons a l => exact ⟨a, l, rfl⟩
      have htake : (E.esvdN v).1.take nsites = (E.esvdN v).1 :=
        List.take_of_length_le (by omega)
      have hdrop : (E.esvdN v).1.drop nsites = [] :=
        List.drop_eq_nil_of_le (by omega)
      have hlist : (E.esvdN v).1.take nsites ++
          [K.ftm (E.esvdN v).2.1 (E.esvdN v).2.2] ++ (E.esvdN v).1.drop nsites
          = m0 :: (rest ++ [K.ftm (E.esvdN v).2.1 (E.esvdN v).2.2]) := by
        rw [htake, hdrop, hms]
        simp
      rw [stateOf_center_list K _ _ nsites m0 _ hlist]
      rw [List.foldl_append]
      show some (K.mul (rest.foldl K.mul m0) _) = _
      rw [show rest.foldl K.mul m0 = prodT K (E.esvdN v).1 by rw [hms]; rfl]
      rw [hrec]
    · have hcpos : 0 < c := Nat.pos_of_ne_zero hc0
      have hclt : c < nsites := lt_of_le_of_ne hc hcN
      obtain ⟨hlen, hrec⟩ := hM hcpos hclt
      rw [fromState, if_neg hc0, if_neg hcN]
      obtain ⟨t0, ts, htk⟩ : ∃ t0 ts, ((E.esvdM v c).1).take c = t0 :: ts := by
        cases hl : ((E.esvdM v c).1).take c with
        | nil =>
            have : c = 0 ∨ (E.esvdM v c).1 = [] := by
              rcases List.take_eq_nil_iff.mp hl with h | h
              · exact Or.inl h
              · exact Or.inr h
            rcases this with h | h
            · omega
            · rw [h] at hlen; simp at hlen; omega
        | cons a l => exact ⟨a, l, rfl⟩
      obtain ⟨d0, ds, hdr⟩ : ∃ d0 ds, ((E.esvdM v c).1).drop c = d0 :: ds := by
        cases hl : ((E.esvdM v c).1).drop c with
        | nil =>
            have := List.drop_eq_nil_iff.mp hl
            omega
        | cons a l => exact ⟨a, l, rfl⟩
      have hlist : ((E.esvdM v c).1).take c ++ [(E.esvdM v c).2] ++
          ((E.esvdM v c).1).drop c
          = t0 :: (ts ++ [(E.esvdM v c).2] ++ ((E.esvdM v c).1).drop c) := by
        rw [htk]; simp
      rw [stateOf_center_list K _ _ c t0 _ hlist]
      rw [List.foldl_append]
      have h1 : (ts ++ [(E.esvdM v c).2]).foldl K.mul t0
          = K.mul (prodT K (((E.esvdM v c).1).take c)) (E.esvdM v c).2 := by
        rw [List.foldl_append]
        rw [htk]; rfl
      rw [h1, hdr, foldl_mul_from K hassoc _ _ (by simp), hassoc]
      rw [← hdr, hrec]

/-- C1 witness: the round trip at the concrete vector 5 over the natural
number kernel, with two sites and the cut at 1. -/
theorem c1_witness : stateOf KN (fromState KN FSW 5 2 1) = some 5 :=
  c1_from_state_roundtrip KN FSW 5 2 1 (fun a b d => Nat.mul_assoc a b d)
    (by decide) (by decide)
    (fun h => absurd h (by decide)) (fun h => absurd h (by decide))
    (fun _ _ => by decide)

theorem shiftLeft1_err (K : Kern T) (mps : MPS T) (lam : T)
    (hcut : mps.cut = some 0) (hlam : mps.Lambda = some lam) :
    shiftLeft1 K mps = (mps, some PyErr.valueError) := by
  simp [shiftLeft1, hcut, hlam]

theorem shiftRight1_err (K : Kern T) (mps : MPS T) (lam : T)
    (hcut : mps.cut = some mps.ms.length) (hlam : mps.Lambda = some lam) :
    shiftRight1 K mps = (mps, some PyErr.valueError) := by
  simp [shiftRight1, hcut, hlam]

theorem shiftLeft1_eq1 (K : Kern T) (mps : MPS T) (lam : T)
    (hcut : mps.cut = some 1) (hlam : mps.Lambda = some lam) :
    shiftLeft1 K mps =
      (⟨mps.ms.set 0 (K.svdL (K.mul (mps.ms.getD 0 K.one) lam)).2.2,
        some (K.ftm (K.svdL (K.mul (mps.ms.getD 0 K.one) lam)).1
          (K.svdL (K.mul (mps.ms.getD 0 K.one) lam)).2.1), some 0⟩, none) := by
  simp only [shiftLeft1, hcut, hlam, if_neg (by omega : ¬(1 : ℕ) = 0),
    if_pos rfl]
  all_goals simp

theorem shiftLeft1_eq2 (K : Kern T) (mps : MPS T) (c : ℕ) (lam : T)
    (hcut : mps.cut = some c) (hlam : mps.Lambda = some lam) (h2 : 2 ≤ c) :
    shiftLeft1 K mps =
      (⟨(mps.ms.set (c - 1) (K.svdL (K.mul (mps.ms.getD (c - 1) K.one) lam)).2.2).set
          (c - 2)
          (K.mul ((mps.ms.set (c - 1)
              (K.svdL (K.mul (mps.ms.getD (c - 1) K.one) lam)).2.2).getD (c - 2) K.one)
            (K.svdL (K.mul (mps.ms.getD (c - 1) K.one) lam)).1),
        some (K.svdL (K.mul (mps.ms.getD (c - 1) K.one) lam)).2.1,
        some (c - 1)⟩, none) := by
  simp only [shiftLeft1, hcut, hlam, if_neg (by omega : ¬c = 0),
    if_neg (by omega : ¬c = 1)]

theorem shiftRight1_eqN (K : Kern T) (mps : MPS T) (c : ℕ) (lam : T)
    (hcut : mps.cut = some c) (hlam : mps.Lambda = some lam)
    (hc1 : c = mps.ms.length - 1) (hlt : c < mps.ms.length) :
    shiftRight1 K mps =
      (⟨mps.ms.set c (K.svdR (K.mul lam (mps.ms.getD c K.one))).1,
        some (K.ftm (K.svdR (K.mul lam (mps.ms.getD c K.one))).2.1
          (K.svdR (K.mul lam (mps.ms.getD c K.one))).2.2), some (c + 1)⟩, none) := by
  simp only [shiftRight1, hcut, hlam, if_neg (by omega : ¬c = mps.ms.length),
    if_pos hc1]

theorem shiftRight1_eqI (K : Kern T) (mps : MPS T) (c : ℕ) (lam : T)
    (hcut : mps.cut = some c) (hlam : mps.Lambda = some lam)
    (hc1 : ¬c = mps.ms.length - 1) (hlt : c < mps.ms.length) :
    shiftRight1 K mps =
      (⟨(mps.ms.set c (K.svdR (K.mul lam (mps.ms.getD c K.one))).1).set (c + 1)
          (K.mul (K.svdR (K.mul lam (mps.ms.getD c K.one))).2.2
            ((mps.ms.set c (K.svdR (K.mul lam (mps.ms.getD c K.one))).1).getD
              (c + 1) K.one)),
        some (K.svdR (K.mul lam (mps.ms.getD c K.one))).2.1,
        some (c + 1)⟩, none) := by
  simp only [shiftRight1, hcut, hlam, if_neg (by omega : ¬c = mps.ms.length),
    if_neg hc1]

theorem shiftLeft1_ok (K : Kern T) (mps : MPS T) (c : ℕ) (lam : T)
    (hcut : mps.cut = some c) (hlam : mps.Lambda = some lam) (h1 : 1 ≤ c) :
    (shiftLeft1 K mps).2 = none ∧
    (shiftLeft1 K mps).1.cut = some (c - 1) ∧
    (∃ l', (shiftLeft1 K mps).1.Lambda = some l') ∧
    (shiftLeft1 K mps).1.ms.length = mps.ms.length ∧
    ∀ i, i ≠ c - 1 → i ≠ c - 2 →
      (shiftLeft1 K mps).1.ms.getD i K.one = mps.ms.getD i K.one := by
  by_cases hc1 : c = 1
  · subst hc1
    rw [shiftLeft1_eq1 K mps lam hcut hlam]
    refine ⟨rfl, rfl, ⟨_, rfl⟩, by simp, ?_⟩
    intro i hi1 _
    exact getD_set_ne _ _ _ _ _ (fun h => hi1 h.symm)
  · rw [shiftLeft1_eq2 K mps c lam hcut hlam (by omega)]
    refine ⟨rfl, rfl, ⟨_, rfl⟩, by simp, ?_⟩
    intro i hi1 hi2
    rw [getD_set_ne _ _ _ _ _ (fun h => hi2 h.symm),
      getD_set_ne _ _ _ _ _ (fun h => hi1 h.symm)]

theorem shiftRight1_ok (K : Kern T) (mps : MPS T) (c : ℕ) (lam : T)
    (hcut : mps.cut = some c) (hlam : mps.Lambda = some lam)
    (hlt : c < mps.ms.length) :
    (shiftRight1 K mps).2 = none ∧
    (shiftRight1 K mps).1.cut = some (c + 1) ∧
    (∃ l', (shiftRight1 K mps).1.Lambda = some l') ∧
    (shiftRight1 K mps).1.ms.length = mps.ms.length ∧
    ∀ i, i ≠ c → i ≠ c + 1 →
      (shiftRight1 K mps).1.ms.getD i K.one = mps.ms.getD i K.one := by
  by_cases hc1 : c = mps.ms.length - 1
  · rw [shiftRight1_eqN K mps c lam hcut hlam hc1 hlt]
    refine ⟨rfl, rfl, ⟨_, rfl⟩, by simp, ?_⟩
    intro i hi1 _
    exact getD_set_ne _ _ _ _ _ (fun h => hi1 h.symm)
  · rw [shiftRight1_eqI K mps c lam hcut hlam hc1 hlt]
    refine ⟨rfl, rfl, ⟨_, rfl⟩, by simp, ?_⟩
    intro i hi1 hi2
    rw [getD_set_ne _ _ _ _ _ (fun h => hi2 h.symm),
      getD_set_ne _ _ _ _ _ (fun h => hi1 h.symm)]

/-- C2: on a chain with a defined center, a leftward shift at cut 0 and a
rightward shift at cut nsite raise ValueError and leave the state, the cut
included, unchanged; a single shift succeeds at every cut strictly inside the
exhausted boundary. -/
theorem c2_boundary_shifts (K : Kern T) (mps : MPS T) :
    (∀ lam, mps.cut = some 0 → mps.Lambda = some lam →
      shiftLeft1 K mps = (mps, some PyErr.valueError)) ∧
    (∀ lam, mps.cut = some mps.ms.length → mps.Lambda = some lam →
      shiftRight1 K mps = (mps, some PyErr.valueError)) ∧
    (∀ c lam, mps.cut = some c → mps.Lambda = some lam → 1 ≤ c →
      c ≤ mps.ms.length → (shiftLeft1 K mps).2 = none) ∧
    (∀ c lam, mps.cut = some c → mps.Lambda = some lam →
      c < mps.ms.length → (shiftRight1 K mps).2 = none) :=
  ⟨fun lam hcut hlam => shiftLeft1_err K mps lam hcut hlam,
   fun lam hcut hlam => shiftRight1_err K mps lam hcut hlam,
   fun c lam hcut hlam h1 _ => (shiftLeft1_ok K mps c lam hcut hlam h1).1,
   fun c lam hcut hlam hlt => (shiftRight1_ok K mps c lam hcut hlam hlt).1⟩

/-- C2 witness: the boundary errors and the interior successes at concrete
two- and three-site chains. -/
theorem c2_witness :
    shiftLeft1 WK mpsCut0 = (mpsCut0, some PyErr.valueError) ∧
    shiftRight1 WK mpsCutN = (mpsCutN, some PyErr.valueError) ∧
    (shiftLeft1 WK mpsW3).2 = none ∧ (shiftRight1 WK mpsW3).2 = none :=
  ⟨(c2_boundary_shifts WK mpsCut0).1 _ rfl rfl,
   (c2_boundary_shifts WK mpsCutN).2.1 _ (by decide) rfl,
   (c2_boundary_shifts WK mpsW3).2.2.1 2 _ rfl rfl (by decide) (by decide),
   (c2_boundary_shifts WK mpsW3).2.2.2 2 _ rfl rfl (by decide)⟩

/-- C3 counterexample: on the three-site chain with its center at cut 2, a
single leftward shift changes the tensor at position 0, which is neither
cut-1 nor cut; the claim that all tensors outside positions cut-1 and cut are
unchanged is false on the code. -/
theorem c3_counterexample :
    mpsW3.cut = some 2 ∧ (0 : ℕ) ≠ 2 - 1 ∧ (0 : ℕ) ≠ 2 ∧
    (shiftLeft1 WK mpsW3).1.ms.getD 0 WK.one ≠ mpsW3.ms.getD 0 WK.one := by
  decide

/-- C3 as amended: with the center strictly inside the chain, a single
leftward shift updates Lambda, decrements the cut and mutates only the chain
tensors at positions cut-1 and cut-2 (only cut-1 when the cut is 1); a single
rightward shift updates Lambda, increments the cut and mutates only the
positions cut and cut+1 (only cut when the cut is nsite-1); every other chain
tensor is unchanged and the length is preserved. -/
theorem c3_shift_frame_amended (K : Kern T) (mps : MPS T) (c : ℕ) (lam : T)
    (hcut : mps.cut = some c) (hlam : mps.Lambda = some lam)
    (h0 : 0 < c) (hN : c < mps.ms.length) :
    ((shiftLeft1 K mps).2 = none ∧ (shiftLeft1 K mps).1.cut = some (c - 1) ∧
     (∃ l', (shiftLeft1 K mps).1.Lambda = some l') ∧
     (shiftLeft1 K mps).1.ms.length = mps.ms.length ∧
     ∀ i, i ≠ c - 1 → i ≠ c - 2 →
       (shiftLeft1 K mps).1.ms.getD i K.one = mps.ms.getD i K.one) ∧
    ((shiftRight1 K mps).2 = none ∧ (shiftRight1 K mps).1.cut = some (c + 1) ∧
     (∃ l', (shiftRight1 K mps).1.Lambda = some l') ∧
     (shiftRight1 K mps).1.ms.length = mps.ms.length ∧
     ∀ i, i ≠ c → i ≠ c + 1 →
       (shiftRight1 K mps).1.ms.getD i K.one = mps.ms.getD i K.one) :=
  ⟨shiftLeft1_ok K mps c lam hcut hlam h0,
   shiftRight1_ok K mps c lam hcut hlam hN⟩

/-- C3 witness: the amended frame property at the three-site chain with the
center at cut 2. -/
theorem c3_witness :
    (shiftLeft1 WK mpsW3).2 = none ∧
    (shiftLeft1 WK mpsW3).1.cut = some 1 ∧
    (shiftRight1 WK mpsW3).2 = none ∧
    (shiftRight1 WK mpsW3).1.cut = some 3 :=
  have h := c3_shift_frame_amended WK mpsW3 2 _ rfl rfl (by decide) (by decide)
  ⟨h.1.1, h.1.2.1, h.2.1, h.2.2.1⟩

theorem mergeABL_eq (K : Kern T) (mps : MPS T) (hinv : centerInv mps) :
    (mergeABL K mps).1 = ⟨mergedMs K mps, none, none⟩ := by
  obtain ⟨ms, L, C⟩ := mps
  rcases hinv with ⟨hc, hl⟩ | ⟨c0, lam, hc, hle, hl⟩
  · simp only at hc hl
    subst hc; subst hl
    simp [mergeABL, mergedMs]
  · simp only at hc hl
    subst hc; subst hl
    by_cases h : c0 = ms.length <;> simp [mergeABL, mergedMs, h]

theorem mergedMs_length (K : Kern T) (mps : MPS T) :
    (mergedMs K mps).length = mps.ms.length := by
  obtain ⟨ms, L, C⟩ := mps
  cases C <;> cases L <;> simp only [mergedMs]
  split <;> simp

/-- C6: for a chain satisfying the center invariant and an in-range cut,
reset first collapses any existing center by merging Lambda into its right
neighbour (the left neighbour when the cut was at the right boundary), then
installs the scalar tensor 1.0 as Lambda at the requested cut; reset with None
leaves the chain center-free after the same collapse. -/
theorem c6_reset (K : Kern T) (mps : MPS T) (hinv : centerInv mps) :
    (∀ c : ℤ, 0 ≤ c → c ≤ (mps.ms.length : ℤ) →
      reset K (some c) mps = (⟨mergedMs K mps, some K.one, some c.toNat⟩, none)) ∧
    reset K none mps = (⟨mergedMs K mps, none, none⟩, none) := by
  have hm := mergeABL_eq K mps hinv
  have hlen := mergedMs_length K mps
  constructor
  · intro c h0 hN
    simp only [reset, hm]
    rw [if_pos ⟨h0, by simpa [hlen] using hN⟩]
  · simp only [reset, hm]

/-- C6 witness: reset at cut 1 of the three-site chain with its center at 2
collapses the center into position 2 and installs the trivial center at 1. -/
theorem c6_witness :
    reset WK (some 1) mpsW3 = (⟨mergedMs WK mpsW3, some WK.one, some 1⟩, none) :=
  (c6_reset WK mpsW3 (Or.inr ⟨2, _, rfl, by decide, rfl⟩)).1 1
    (by decide) (by decide)

/-- C10: for a chain satisfying the center invariant and an out-of-range cut,
reset raises ValueError only after the existing center has been merged away:
the chain is left center-free with the collapse applied, not in its original
state. -/
theorem c10_reset_error_nonatomic (K : Kern T) (mps : MPS T)
    (hinv : centerInv mps) (c : ℤ)
    (hc : c < 0 ∨ (mps.ms.length : ℤ) < c) :
    reset K (some c) mps =
      (⟨mergedMs K mps, none, none⟩, some PyErr.valueError) := by
  have hm := mergeABL_eq K mps hinv
  have hlen := mergedMs_length K mps
  simp only [reset, hm]
  rw [if_neg (by
    intro h
    rcases h with ⟨h0, hN⟩
    simp only [hlen] at hN
    omega)]

/-- C10 witness: reset at the out-of-range cut 5 of the three-site chain
raises ValueError and leaves the collapsed, center-free chain behind. -/
theorem c10_witness :
    reset WK (some 5) mpsW3 =
      (⟨mergedMs WK mpsW3, none, none⟩, some PyErr.valueError) :=
  c10_reset_error_nonatomic WK mpsW3 (Or.inr ⟨2, _, rfl, by decide, rfl⟩) 5
    (Or.inr (by decide))

theorem reset_inrange (K : Kern T) (mps : MPS T) (hinv : centerInv mps)
    (c : ℤ) (h0 : 0 ≤ c) (hN : c ≤ (mps.ms.length : ℤ)) :
    reset K (some c) mps =
      (⟨mergedMs K mps, some K.one, some c.toNat⟩, none) := by
  have hm := mergeABL_eq K mps hinv
  have hlen := mergedMs_length K mps
  simp only [reset, hm]
  rw [if_pos ⟨h0, by simpa [hlen] using hN⟩]

theorem ilshift_natCast (K : Kern T) (n : ℕ) (m : MPS T) :
    ilshift K (n : ℤ) m = runSteps (shiftLeft1 K) n m := by
  rw [ilshift, if_pos (Int.natCast_nonneg n), Int.toNat_natCast]

theorem irshift_natCast (K : Kern T) (n : ℕ) (m : MPS T) :
    irshift K (n : ℤ) m = runSteps (shiftRight1 K) n m := by
  rw [irshift, ilshift]
  by_cases h : n = 0
  · subst h
    rw [if_pos (by omega)]
    rfl
  · rw [if_neg (by omega)]
    simp

theorem traceL_ok (K : Kern T) :
    ∀ (k : ℕ) (mps : MPS T) (c : ℕ) (lam : T),
      mps.cut = some c → mps.Lambda = some lam → k ≤ c →
      traceCuts (shiftLeft1 K) k mps =
        (List.range k).map (fun i => some (c - 1 - i)) ∧
      (runSteps (shiftLeft1 K) k mps).2 = none ∧
      (runSteps (shiftLeft1 K) k mps).1.cut = some (c - k) ∧
      (∃ l', (runSteps (shiftLeft1 K) k mps).1.Lambda = some l') ∧
      (runSteps (shiftLeft1 K) k mps).1.ms.length = mps.ms.length := by
  intro k
  induction k with
  | zero =>
      intro mps c lam hcut hlam _
      exact ⟨rfl, rfl, by simpa using hcut, ⟨lam, hlam⟩, rfl⟩
  | succ k ih =>
      intro mps c lam hcut hlam hk
      have h1 : 1 ≤ c := by omega
      obtain ⟨e0, hcut', ⟨l', hl'⟩, hlen, _⟩ :=
        shiftLeft1_ok K mps c lam hcut hlam h1
      have hm' : shiftLeft1 K mps = ((shiftLeft1 K mps).1, none) := by
        rw [← e0]
      obtain ⟨ht, hr2, hrc, hrl, hrlen⟩ :=
        ih (shiftLeft1 K mps).1 (c - 1) l' hcut' hl' (by omega)
      refine ⟨?_, ?_, ?_, ?_, ?_⟩
      · rw [traceCuts, hm']
        show (shiftLeft1 K mps).1.cut ::
            traceCuts (shiftLeft1 K) k (shiftLeft1 K mps).1 = _
        rw [ht, hcut', List.range_succ_eq_map, List.map_cons, List.map_map]
        refine congrArg₂ _ (by simp) ?_
        exact List.map_congr_left (fun i _ => congrArg some (by omega))
      · rw [runSteps, hm', bindS, hr2]
      · rw [runSteps, hm', bindS, hrc]
        exact congrArg some (by omega)
      · rw [runSteps, hm', bindS]
        exact hrl
      · rw [runSteps, hm', bindS, hrlen, hlen]

theorem traceR_ok (K : Kern T) :
    ∀ (k : ℕ) (mps : MPS T) (c : ℕ) (lam : T),
      mps.cut = some c → mps.Lambda = some lam → c + k ≤ mps.ms.length →
      traceCuts (shiftRight1 K) k mps =
        (List.range k).map (fun i => some (c + 1 + i)) ∧
      (runSteps (shiftRight1 K) k mps).2 = none ∧
      (runSteps (shiftRight1 K) k mps).1.cut = some (c + k) ∧
      (∃ l', (runSteps (shiftRight1 K) k mps).1.Lambda = some l') ∧
      (runSteps (shiftRight1 K) k mps).1.ms.length = mps.ms.length := by
  intro k
  induction k with
  | zero =>
      intro mps c lam hcut hlam _
      exact ⟨rfl, rfl, by simpa using hcut, ⟨lam, hlam⟩, rfl⟩
  | succ k ih =>
      intro mps c lam hcut hlam hk
      have h1 : c < mps.ms.length := by omega
      obtain ⟨e0, hcut', ⟨l', hl'⟩, hlen, _⟩ :=
        shiftRight1_ok K mps c lam hcut hlam h1
      have hm' : shiftRight1 K mps = ((shiftRight1 K mps).1, none) := by
        rw [← e0]
      obtain ⟨ht, hr2, hrc, hrl, hrlen⟩ :=
        ih (shiftRight1 K mps).1 (c + 1) l' hcut' hl' (by omega)
      refine ⟨?_, ?_, ?_, ?_, ?_⟩
      · rw [traceCuts, hm']
        show (shiftRight1 K mps).1.cut ::
            traceCuts (shiftRight1 K) k (shiftRight1 K mps).1 = _
        rw [ht, hcut', List.range_succ_eq_map, List.map_cons, List.map_map]
        refine congrArg₂ _ (by simp) ?_
        exact List.map_congr_left (fun i _ => congrArg some (by omega))
      · rw [runSteps, hm', bindS, hr2]
      · rw [runSteps, hm', bindS, hrc]
        exact congrArg some (by omega)
      · rw [runSteps, hm', bindS]
        exact hrl
      · rw [runSteps, hm', bindS, hrlen, hlen]

/-- C4 counterexample: on a concrete two-site chain with target cut 0
(a left-half target), the chain canonicalize produces differs from the chain
produced by the algorithm the claim describes (full rightward sweep to nsite
first, then leftward back), so the claim misstates which half gets which
sweep order. -/
theorem c4_counterexample :
    canonicalize WK 0 mps2W ≠ canonicalizeSpecC4 WK 0 mps2W := by
  decide

/-- C4 as amended, the mirror of the claim: for a target cut in the left half
(cut at most nsite/2 under floor division), canonicalize resets the center to
nsite, performs a full leftward sweep whose cut positions descend to 0, then a
rightward sweep ascending to the target; for a target in the right half it
resets to 0, sweeps rightward up to nsite, then leftward down to the target;
in both cases it ends without error with the cut at the target. -/
theorem c4_canonicalize_amended (K : Kern T) (mps : MPS T)
    (hinv : centerInv mps) (c : ℕ) (hc : c ≤ mps.ms.length) :
    (c ≤ mps.ms.length / 2 →
      (reset K (some (mps.ms.length : ℤ)) mps).2 = none ∧
      (reset K (some (mps.ms.length : ℤ)) mps).1.cut = some mps.ms.length ∧
      traceCuts (shiftLeft1 K) mps.ms.length
          (reset K (some (mps.ms.length : ℤ)) mps).1 =
        (List.range mps.ms.length).map
          (fun i => some (mps.ms.length - 1 - i)) ∧
      (runSteps (shiftLeft1 K) mps.ms.length
          (reset K (some (mps.ms.length : ℤ)) mps).1).1.cut = some 0 ∧
      traceCuts (shiftRight1 K) c
          (runSteps (shiftLeft1 K) mps.ms.length
            (reset K (some (mps.ms.length : ℤ)) mps).1).1 =
        (List.range c).map (fun i => some (i + 1)) ∧
      (canonicalize K c mps).2 = none ∧
      (canonicalize K c mps).1.cut = some c) ∧
    (mps.ms.length / 2 < c →
      (reset K (some 0) mps).2 = none ∧
      (reset K (some 0) mps).1.cut = some 0 ∧
      traceCuts (shiftRight1 K) mps.ms.length (reset K (some 0) mps).1 =
        (List.range mps.ms.length).map (fun i => some (i + 1)) ∧
      (runSteps (shiftRight1 K) mps.ms.length
          (reset K (some 0) mps).1).1.cut = some mps.ms.length ∧
      traceCuts (shiftLeft1 K) (mps.ms.length - c)
          (runSteps (shiftRight1 K) mps.ms.length
            (reset K (some 0) mps).1).1 =
        (List.range (mps.ms.length - c)).map
          (fun i => some (mps.ms.length - 1 - i)) ∧
      (canonicalize K c mps).2 = none ∧
      (canonicalize K c mps).1.cut = some c) := by
  have hlenM := mergedMs_length K mps
  constructor
  · intro hbr
    have hres := reset_inrange K mps hinv (mps.ms.length : ℤ) (by omega)
      (le_refl _)
    have hcut1 : (reset K (some (mps.ms.length : ℤ)) mps).1.cut
        = some mps.ms.length := by
      rw [hres]; simp
    have hlam1 : (reset K (some (mps.ms.length : ℤ)) mps).1.Lambda
        = some K.one := by
      rw [hres]
    have hlen1 : (reset K (some (mps.ms.length : ℤ)) mps).1.ms.length
        = mps.ms.length := by
      rw [hres]; simpa using hlenM
    obtain ⟨htL, hL2, hLc, ⟨l2, hl2⟩, hLlen⟩ :=
      traceL_ok K mps.ms.length _ mps.ms.length K.one hcut1 hlam1 (le_refl _)
    have hLc0 : (runSteps (shiftLeft1 K) mps.ms.length
        (reset K (some (mps.ms.length : ℤ)) mps).1).1.cut = some 0 := by
      rw [hLc]; simp
    obtain ⟨htR, hR2, hRc, _, _⟩ :=
      traceR_ok K c _ 0 l2 hLc0 hl2 (by rw [hLlen, hlen1]; omega)
    have hres' : reset K (some (mps.ms.length : ℤ)) mps
        = ((reset K (some (mps.ms.length : ℤ)) mps).1, none) := by
      rw [hres]
    have hLdone : runSteps (shiftLeft1 K) mps.ms.length
          (reset K (some (mps.ms.length : ℤ)) mps).1
        = ((runSteps (shiftLeft1 K) mps.ms.length
            (reset K (some (mps.ms.length : ℤ)) mps).1).1, none) := by
      rw [← hL2]
    have hcanon : canonicalize K c mps
        = runSteps (shiftRight1 K) c (runSteps (shiftLeft1 K) mps.ms.length
            (reset K (some (mps.ms.length : ℤ)) mps).1).1 := by
      rw [canonicalize, if_pos hbr, hres', bindS, ilshift_natCast, hLdone,
        bindS, irshift_natCast]
    refine ⟨by rw [hres'], hcut1, htL, hLc0, ?_, ?_, ?_⟩
    · exact htR.trans (List.map_congr_left fun i _ => congrArg some (by omega))
    · rw [hcanon]; exact hR2
    · rw [hcanon, hRc]
      exact congrArg some (by omega)
  · intro hbr
    have hres := reset_inrange K mps hinv 0 (by omega) (by omega)
    have hcut1 : (reset K (some 0) mps).1.cut = some 0 := by
      rw [hres]; rfl
    have hlam1 : (reset K (some 0) mps).1.Lambda = some K.one := by
      rw [hres]
    have hlen1 : (reset K (some 0) mps).1.ms.length = mps.ms.length := by
      rw [hres]; simpa using hlenM
    obtain ⟨htR, hR2, hRc, ⟨l2, hl2⟩, hRlen⟩ :=
      traceR_ok K mps.ms.length _ 0 K.one hcut1 hlam1 (by omega)
    have hRcN : (runSteps (shiftRight1 K) mps.ms.length
        (reset K (some 0) mps).1).1.cut = some mps.ms.length := by
      rw [hRc]; exact congrArg some (by omega)
    obtain ⟨htL, hL2, hLc, _, _⟩ :=
      traceL_ok K (mps.ms.length - c) _ mps.ms.length l2 hRcN hl2 (by omega)
    have hres' : reset K (some 0) mps = ((reset K (some 0) mps).1, none) := by
      rw [hres]
    have hRdone : runSteps (shiftRight1 K) mps.ms.length
          (reset K (some 0) mps).1
        = ((runSteps (shiftRight1 K) mps.ms.length
            (reset K (some 0) mps).1).1, none) := by
      rw [← hR2]
    have hsub : (mps.ms.length : ℤ) - (c : ℤ) = ((mps.ms.length - c : ℕ) : ℤ) := by
      omega
    have hcanon : canonicalize K c mps
        = runSteps (shiftLeft1 K) (mps.ms.length - c)
            (runSteps (shiftRight1 K) mps.ms.length
              (reset K (some 0) mps).1).1 := by
      rw [canonicalize, if_neg (by omega), hres', bindS, irshift_natCast,
        hRdone, bindS, hsub, ilshift_natCast]
    refine ⟨by rw [hres'], hcut1, ?_, hRcN, htL, ?_, ?_⟩
    · exact htR.trans (List.map_congr_left fun i _ => congrArg some (by omega))
    · rw [hcanon]; exact hL2
    · rw [hcanon, hLc]
      exact congrArg some (by omega)

/-- C4 witness: on a concrete two-site chain with target cut 0, the leftward
sweep of the left-half branch descends through cuts 1 and 0 and canonicalize
ends without error with the cut at 0. -/
theorem c4_witness :
    traceCuts (shiftLeft1 WK) 2 (reset WK (some 2) mps2W).1 =
      [some 1, some 0] ∧
    (canonicalize WK 0 mps2W).2 = none ∧
    (canonicalize WK 0 mps2W).1.cut = some 0 :=
  have h := (c4_canonicalize_amended WK mps2W (Or.inl ⟨rfl, rfl⟩) 0
    (by decide)).1 (by decide)
  ⟨h.2.2.1.trans (by decide), h.2.2.2.2.2.1, h.2.2.2.2.2.2⟩

theorem tableFold_none (K : Kern T) (s : ℕ) :
    ∀ (l : List T) (n acc : ℕ),
      (∀ j, j < l.length → K.labS (l.getD j K.one) ≠ s) →
      (List.enumFrom n l).foldl
        (fun acc p => if K.labS p.2 = s then p.1 else acc) acc = acc := by
  intro l
  induction l with
  | nil => intro n acc _; rfl
  | cons x xs ih =>
      intro n acc h
      show (List.enumFrom (n + 1) xs).foldl _
        (if K.labS x = s then n else acc) = acc
      rw [if_neg (show K.labS x ≠ s from h 0 (by simp))]
      exact ih (n + 1) acc (fun j hj => h (j + 1) (by simpa using hj))

theorem tableFold_found (K : Kern T) (s : ℕ) :
    ∀ (l : List T) (q n acc : ℕ), q < l.length →
      K.labS (l.getD q K.one) = s →
      (∀ j, j < l.length → j ≠ q → K.labS (l.getD j K.one) ≠ s) →
      (List.enumFrom n l).foldl
        (fun acc p => if K.labS p.2 = s then p.1 else acc) acc = n + q := by
  intro l
  induction l with
  | nil => intro q n acc hq; simp at hq
  | cons x xs ih =>
      intro q n acc hq hmatch huniq
      show (List.enumFrom (n + 1) xs).foldl _
        (if K.labS x = s then n else acc) = n + q
      cases q with
      | zero =>
          rw [if_pos (show K.labS x = s from hmatch),
            tableFold_none K s xs (n + 1) n
              (fun j hj => huniq (j + 1) (by simpa using hj) (by omega))]
          omega
      | succ q =>
          rw [if_neg (show K.labS x ≠ s from huniq 0 (by simp) (by omega))]
          rw [ih q (n + 1) acc (by simpa using hq) hmatch
            (fun j hj hne => huniq (j + 1) (by simpa using hj) (by omega))]
          omega

theorem tablePos_eq (K : Kern T) (ms : List T) (s : ℕ) (q : ℕ)
    (hq : q < ms.length) (hmatch : K.labS (ms.getD q K.one) = s)
    (huniq : ∀ j, j < ms.length → j ≠ q → K.labS (ms.getD j K.one) ≠ s) :
    tablePos K ms s = q := by
  have h := tableFold_found K s ms q 0 0 hq hmatch huniq
  simpa [tablePos, List.enum] using h

theorem setABL_some (K : Kern T) (mps : MPS T) (m lam : T) :
    setABL K mps (some m) (some lam) =
      (if K.lab1 lam = K.labL m then
        (⟨mps.ms.set (tablePos K mps.ms (K.labS m)) m, some lam,
          some (tablePos K mps.ms (K.labS m))⟩, none)
      else if K.lab1 lam = K.labR m then
        (⟨mps.ms.set (tablePos K mps.ms (K.labS m)) m, some lam,
          some (tablePos K mps.ms (K.labS m) + 1)⟩, none)
      else
        (⟨mps.ms.set (tablePos K mps.ms (K.labS m)) m, some lam, mps.cut⟩,
         some .valueError)) := rfl

theorem setABL_restore (K : Kern T) (mps : MPS T) (hinv : centerInv mps)
    (hro : restoreOK K mps) :
    (setABL K (mergeABL K mps).1 (mergeABL K mps).2.1 (mergeABL K mps).2.2).1
      = mps := by
  obtain ⟨ms, L, C⟩ := mps
  rcases hinv with ⟨hc, hl⟩ | ⟨c0, lam, hc, hle, hl⟩
  · simp only at hc hl
    subst hc; subst hl
    rfl
  · simp only at hc hl
    subst hc; subst hl
    obtain ⟨hne, huniq, hRb, hLb⟩ := hro c0 lam rfl rfl
    simp only at hne huniq hRb hLb hle
    have hlen1 : 1 ≤ ms.length := by
      have := List.length_pos.mpr hne
      omega
    by_cases hcN : c0 = ms.length
    · obtain ⟨hlr, hll, hls⟩ := hRb hcN
      have hmerge : mergeABL K ⟨ms, some lam, some c0⟩
          = (⟨ms.set (c0 - 1) (K.mul (ms.getD (c0 - 1) K.one) lam), none,
              none⟩, some (ms.getD (c0 - 1) K.one), some lam) := by
        simp only [mergeABL, if_pos hcN]
      rw [hmerge, setABL_some]
      have hpos : tablePos K
          (ms.set (c0 - 1) (K.mul (ms.getD (c0 - 1) K.one) lam))
          (K.labS (ms.getD (c0 - 1) K.one)) = c0 - 1 := by
        apply tablePos_eq
        · simp only [List.length_set]; omega
        · rw [getD_set_self _ _ _ _ (by omega)]
          exact hls
        · intro j hj hne'
          simp only [List.length_set] at hj
          rw [getD_set_ne _ _ _ _ _ (fun h => hne' h.symm)]
          intro heq
          exact hne' (huniq j (c0 - 1) hj (by omega) heq)
      rw [if_neg hll, if_pos hlr, hpos]
      rw [List.set_set, set_getD_self]
      have hc1 : c0 - 1 + 1 = c0 := by omega
      rw [hc1]
    · have hlt : c0 < ms.length := by omega
      obtain ⟨hll, hls⟩ := hLb hcN
      have hmerge : mergeABL K ⟨ms, some lam, some c0⟩
          = (⟨ms.set c0 (K.mul lam (ms.getD c0 K.one)), none, none⟩,
             some (ms.getD c0 K.one), some lam) := by
        simp only [mergeABL, if_neg hcN]
      rw [hmerge, setABL_some]
      have hpos : tablePos K (ms.set c0 (K.mul lam (ms.getD c0 K.one)))
          (K.labS (ms.getD c0 K.one)) = c0 := by
        apply tablePos_eq
        · simp only [List.length_set]; omega
        · rw [getD_set_self _ _ _ _ hlt]
          exact hls
        · intro j hj hne'
          simp only [List.length_set] at hj
          rw [getD_set_ne _ _ _ _ _ (fun h => hne' h.symm)]
          intro heq
          exact hne' (huniq j c0 hj hlt heq)
      rw [if_pos hll, hpos]
      rw [List.set_set, set_getD_self]

theorem centerInv_shiftLeft1 (K : Kern T) (mps : MPS T)
    (h : centerInv mps) : centerInv (shiftLeft1 K mps).1 := by
  rcases h with ⟨hc, hl⟩ | ⟨c, lam, hc, hle, hl⟩
  · have heq : shiftLeft1 K mps = (mps, some .typeError) := by
      simp only [shiftLeft1, hc, hl]
    rw [heq]
    exact Or.inl ⟨hc, hl⟩
  · by_cases hc0 : c = 0
    · subst hc0
      rw [shiftLeft1_err K mps lam hc hl]
      exact Or.inr ⟨0, lam, hc, hle, hl⟩
    · obtain ⟨_, hcut', ⟨l', hl'⟩, hlen, _⟩ :=
        shiftLeft1_ok K mps c lam hc hl (by omega)
      exact Or.inr ⟨c - 1, l', hcut', by omega, hl'⟩

theorem centerInv_shiftRight1 (K : Kern T) (mps : MPS T)
    (h : centerInv mps) : centerInv (shiftRight1 K mps).1 := by
  rcases h with ⟨hc, hl⟩ | ⟨c, lam, hc, hle, hl⟩
  · have heq : shiftRight1 K mps = (mps, some .typeError) := by
      simp only [shiftRight1, hc, hl]
    rw [heq]
    exact Or.inl ⟨hc, hl⟩
  · by_cases hcN : c = mps.ms.length
    · subst hcN
      rw [shiftRight1_err K mps lam hc hl]
      exact Or.inr ⟨mps.ms.length, lam, hc, le_refl _, hl⟩
    · obtain ⟨_, hcut', ⟨l', hl'⟩, hlen, _⟩ :=
        shiftRight1_ok K mps c lam hc hl (by omega)
      exact Or.inr ⟨c + 1, l', hcut', by omega, hl'⟩

theorem centerInv_bindS (st : MPS T × Option PyErr)
    (f : MPS T → MPS T × Option PyErr) (hst : centerInv st.1)
    (hf : ∀ m, centerInv m → centerInv (f m).1) :
    centerInv (bindS st f).1 := by
  obtain ⟨m, e⟩ := st
  cases e with
  | none => exact hf m hst
  | some er => exact hst

theorem centerInv_runSteps (f : MPS T → MPS T × Option PyErr)
    (hf : ∀ m, centerInv m → centerInv (f m).1) :
    ∀ (k : ℕ) (m : MPS T), centerInv m → centerInv (runSteps f k m).1 := by
  intro k
  induction k with
  | zero => intro m h; exact h
  | succ k ih =>
      intro m h
      rw [runSteps]
      exact centerInv_bindS (f m) _ (hf m h) (fun m' h' => ih m' h')

theorem centerInv_ilshift (K : Kern T) (k : ℤ) (m : MPS T)
    (h : centerInv m) : centerInv (ilshift K k m).1 := by
  rw [ilshift]
  split
  · exact centerInv_runSteps _ (centerInv_shiftLeft1 K) _ m h
  · exact centerInv_runSteps _ (centerInv_shiftRight1 K) _ m h

theorem centerInv_irshift (K : Kern T) (k : ℤ) (m : MPS T)
    (h : centerInv m) : centerInv (irshift K k m).1 :=
  centerInv_ilshift K (-k) m h

theorem centerInv_reset (K : Kern T) (cut : Option ℤ) (mps : MPS T)
    (h : centerInv mps) : centerInv (reset K cut mps).1 := by
  have hm1 : (mergeABL K mps).1.cut = none ∧ (mergeABL K mps).1.Lambda = none := by
    rw [mergeABL_eq K mps h]
    exact ⟨rfl, rfl⟩
  cases cut with
  | none => exact Or.inl hm1
  | some c =>
      simp only [reset]
      split
      · rename_i hcC
        refine Or.inr ⟨c.toNat, K.one, rfl, ?_, rfl⟩
        show c.toNat ≤ (mergeABL K mps).1.ms.length
        omega
      · exact Or.inl hm1

theorem centerInv_canonicalize (K : Kern T) (c : ℕ) (mps : MPS T)
    (h : centerInv mps) : centerInv (canonicalize K c mps).1 := by
  rw [canonicalize]
  split
  · exact centerInv_bindS _ _ (centerInv_reset K _ mps h)
      (fun m1 h1 => centerInv_bindS _ _ (centerInv_ilshift K _ m1 h1)
        (fun m2 h2 => centerInv_irshift K _ m2 h2))
  · exact centerInv_bindS _ _ (centerInv_reset K _ mps h)
      (fun m1 h1 => centerInv_bindS _ _ (centerInv_irshift K _ m1 h1)
        (fun m2 h2 => centerInv_ilshift K _ m2 h2))

theorem centerInv_mk (ms : List T) (lam : Option T) (cut : Option ℤ)
    (m : MPS T) (h : mkMPS ms lam cut = .ok m) : centerInv m := by
  cases lam with
  | none =>
      cases cut with
      | none =>
          simp only [mkMPS] at h
          injection h with h
          subst h
          exact Or.inl ⟨rfl, rfl⟩
      | some c => exact absurd h (by simp [mkMPS])
  | some l =>
      cases cut with
      | none => exact absurd h (by simp [mkMPS])
      | some c =>
          simp only [mkMPS] at h
          split at h
          · rename_i hrange
            injection h with h
            subst h
            refine Or.inr ⟨c.toNat, l, rfl, ?_, rfl⟩
            show c.toNat ≤ ms.length
            omega
          · exact absurd h (by simp)

/-- C7: the center invariant, that either the cut is undefined and Lambda
absent or the cut is defined in [0, nsite] with Lambda present, is established
by the constructor and preserved by single bond shifts (also on their error
paths), by shift loops of either sign, by reset (also on its error path), by
canonicalize, and by addition, for the sum as well as for both operands after
their centers are written back (addition of a chain with itself included);
the write-back needs the label coherence a well-formed centered chain has. -/
theorem c7_center_invariant (K : Kern T) :
    (∀ (ms : List T) (lam : Option T) (cut : Option ℤ) (m : MPS T),
      mkMPS ms lam cut = .ok m → centerInv m) ∧
    (∀ mps : MPS T, centerInv mps → centerInv (shiftLeft1 K mps).1) ∧
    (∀ mps : MPS T, centerInv mps → centerInv (shiftRight1 K mps).1) ∧
    (∀ (k : ℤ) (mps : MPS T), centerInv mps →
      centerInv (ilshift K k mps).1) ∧
    (∀ (k : ℤ) (mps : MPS T), centerInv mps →
      centerInv (irshift K k mps).1) ∧
    (∀ (cut : Option ℤ) (mps : MPS T), centerInv mps →
      centerInv (reset K cut mps).1) ∧
    (∀ (c : ℕ) (mps : MPS T), centerInv mps →
      centerInv (canonicalize K c mps).1) ∧
    (∀ a b : MPS T, centerInv a → centerInv b → restoreOK K a →
      restoreOK K b → centerInv (addMPS K a b).1 ∧
        centerInv (addMPS K a b).2.1 ∧ centerInv (addMPS K a b).2.2) ∧
    (∀ a : MPS T, centerInv a → restoreOK K a →
      centerInv (addSelf K a).1 ∧ centerInv (addSelf K a).2) := by
  refine ⟨centerInv_mk, centerInv_shiftLeft1 K, centerInv_shiftRight1 K,
    fun k mps h => centerInv_ilshift K k mps h,
    fun k mps h => centerInv_irshift K k mps h,
    fun cut mps h => centerInv_reset K cut mps h,
    fun c mps h => centerInv_canonicalize K c mps h, ?_, ?_⟩
  · intro a b ha hb hra hrb
    refine ⟨Or.inl ⟨rfl, rfl⟩, ?_, ?_⟩
    · show centerInv (setABL K (mergeABL K a).1 (mergeABL K a).2.1
        (mergeABL K a).2.2).1
      rw [setABL_restore K a ha hra]
      exact ha
    · show centerInv (setABL K (mergeABL K b).1 (mergeABL K b).2.1
        (mergeABL K b).2.2).1
      rw [setABL_restore K b hb hrb]
      exact hb
  · intro a ha hra
    refine ⟨Or.inl ⟨rfl, rfl⟩, ?_⟩
    show centerInv (setABL K (mergeABL K a).1 (mergeABL K a).2.1
      (mergeABL K a).2.2).1
    rw [setABL_restore K a ha hra]
    exact ha

/-- C7 witness: the invariant at concrete instances of a shift, a reset and a
self-addition on the three-site chain with its center at cut 2. -/
theorem c7_witness :
    centerInv (shiftLeft1 WK mpsW3).1 ∧
    centerInv (reset WK (some 1) mpsW3).1 ∧
    centerInv (addSelf WK mpsW3).1 ∧ centerInv (addSelf WK mpsW3).2 := by
  have hinv : centerInv mpsW3 := Or.inr ⟨2, _, rfl, by decide, rfl⟩
  have hro : restoreOK WK mpsW3 := by
    intro c lam hc hl
    injection hc with hc
    injection hl with hl
    subst hc; subst hl
    have huniq : ∀ i, i < 3 → ∀ j, j < 3 →
        WK.labS (mpsW3.ms.getD i WK.one) = WK.labS (mpsW3.ms.getD j WK.one) →
        i = j := by decide
    exact ⟨by decide, fun i j hi hj => huniq i hi j hj,
      fun h => absurd h (by decide), fun _ => ⟨by decide, by decide⟩⟩
  have h := c7_center_invariant WK
  exact ⟨h.2.1 mpsW3 hinv, h.2.2.2.2.2.1 (some 1) mpsW3 hinv,
    (h.2.2.2.2.2.2.2.2 mpsW3 hinv hro).1, (h.2.2.2.2.2.2.2.2 mpsW3 hinv hro).2⟩

/-- C8: relayer called with a target layer equal to the current layer of the
chain returns a copy of the chain unchanged in content and raises no error. -/
theorem c8_relayer_same_layer (K : Kern T) (E : EKern T) (D : DegFres)
    (mps : MPS T) (layer : ℕ) (m0 : T) (rest : List T)
    (hms : mps.ms = m0 :: rest) (hlt : layer < D.nlayers)
    (heq : layer = D.level (K.labS m0) - 1) :
    relayer K E D mps layer = .ok (mps, mps) := by
  simp only [relayer, hms, if_pos hlt, if_pos heq]

/-- C8 witness: the identity relayer at a concrete single-site chain on the
single layer of a concrete tree. -/
theorem c8_witness : relayer WK W9E D8 mps8 0 = .ok (mps8, mps8) :=
  c8_relayer_same_layer WK W9E D8 mps8 0 _ _ rfl (by decide) (by decide)

theorem fineStep_fold_some (K : Kern T) (E : EKern T) (D : DegFres)
    (new old : ℕ) :
    ∀ (l : List T) (acc : List T × Option (T × T)),
      acc.2.isSome = true ∨ l ≠ [] →
      (l.foldl (fineStep K E D new old) acc).2.isSome = true := by
  intro l
  induction l with
  | nil =>
      intro acc h
      rcases h with h | h
      · exact h
      · exact absurd rfl h
  | cons x xs ih =>
      intro acc h
      show (xs.foldl (fineStep K E D new old)
        (fineStep K E D new old acc x)).2.isSome = true
      exact ih (fineStep K E D new old acc x) (Or.inl rfl)

/-- C9 counterexample: fine-graining the concrete single-site chain to its
two-descendant layer returns a chain whose cut is defined (it is 2, the new
number of tensors), so the claim that the returned chain has an undefined cut
for fine-graining as well is false on the code. -/
theorem c9_counterexample :
    (relayer WK W9E D9 mps9 1).map (fun p => p.1.cut) = .ok (some 2) ∧
    some (2 : ℕ) ≠ (none : Option ℕ) :=
  ⟨rfl, by decide⟩

/-- C9 as amended: relayer merges any existing center away before remapping;
a coarse-graining call returns a chain with no center (cut undefined, Lambda
absent), while a fine-graining call returns a chain whose center sits at the
right boundary, the cut being the number of new tensors and Lambda the
ftensordot product of the trailing factors of the last split; in both cases
the input chain has its tensor, cut and Lambda restored to their original
values afterwards. -/
theorem c9_relayer_center_amended (K : Kern T) (E : EKern T) (D : DegFres)
    (mps : MPS T) (layer : ℕ) (m0 : T) (rest : List T)
    (hms : mps.ms = m0 :: rest) (hlt : layer < D.nlayers)
    (hinv : centerInv mps) (hro : restoreOK K mps)
    (hne : ¬layer = D.level (K.labS m0) - 1) :
    (layer < D.level (K.labS m0) - 1 →
      ∃ Ms after,
        relayer K E D mps layer = .ok (⟨Ms, none, none⟩, after) ∧
        after = mps) ∧
    (D.level (K.labS m0) - 1 < layer →
      ∃ Ms lam after,
        relayer K E D mps layer =
          .ok (⟨Ms, some lam, some Ms.length⟩, after) ∧
        after = mps) := by
  constructor
  · intro hcoarse
    refine ⟨(D.sitesAt layer).map (fun site =>
        K.mergeT (prodT K ((D.descendants site
            (D.level (K.labS m0) - 1 - layer)).map
          (fun i => (mergeABL K mps).1.ms.getD
            (D.tableAt (D.level (K.labS m0) - 1) i) K.one))) site),
      (setABL K (mergeABL K mps).1 (mergeABL K mps).2.1
        (mergeABL K mps).2.2).1,
      ?_, setABL_restore K mps hinv hro⟩
    simp only [relayer, hms, if_pos hlt, if_neg hne, if_pos hcoarse]
  · intro hfine
    have hold : ¬layer < D.level (K.labS m0) - 1 := by omega
    have hpne : (mergeABL K mps).1.ms ≠ [] := by
      have hplen : (mergeABL K mps).1.ms.length = mps.ms.length := by
        rw [mergeABL_eq K mps hinv]
        exact mergedMs_length K mps
      intro h0
      rw [h0, hms] at hplen
      simp at hplen
    have hsome := fineStep_fold_some K E D layer (D.level (K.labS m0) - 1)
      (mergeABL K mps).1.ms ([], none) (Or.inr hpne)
    obtain ⟨sv, hsv⟩ := Option.isSome_iff_exists.mp hsome
    refine ⟨((mergeABL K mps).1.ms.foldl
        (fineStep K E D layer (D.level (K.labS m0) - 1)) ([], none)).1,
      K.ftm sv.1 sv.2,
      (setABL K (mergeABL K mps).1 (mergeABL K mps).2.1
        (mergeABL K mps).2.2).1,
      ?_, setABL_restore K mps hinv hro⟩
    simp only [relayer, hms, if_pos hlt, if_neg hne, if_neg hold]
    rw [hsv]

/-- C9 witness: the amended fine-graining behavior at the concrete
center-free single-site chain, whose returned chain carries its center at the
right boundary while the input is left as it was. -/
theorem c9_witness :
    ∃ Ms lam after,
      relayer WK W9E D9 mps9 1 = .ok (⟨Ms, some lam, some Ms.length⟩, after) ∧
      after = mps9 :=
  (c9_relayer_center_amended WK W9E D9 mps9 1 _ _ rfl (by decide)
    (Or.inl ⟨rfl, rfl⟩) (fun c lam hc _ => Option.noConfusion hc)
    (by decide)).2 (by decide)

section NumericLemmas

variable {R : Type} [CommRing R]

theorem sum_in2 {M : Type} [AddCommMonoid M] (s t1 t2 : Finset ℕ)
    (g : ℕ → ℕ → ℕ → M) :
    (∑ x ∈ s, ∑ y ∈ t1, ∑ z ∈ t2, g x y z)
      = ∑ y ∈ t1, ∑ z ∈ t2, ∑ x ∈ s, g x y z := by
  rw [Finset.sum_comm]
  exact Finset.sum_congr rfl fun y _ => Finset.sum_comm

theorem sum_in3 {M : Type} [AddCommMonoid M] (s t1 t2 t3 : Finset ℕ)
    (g : ℕ → ℕ → ℕ → ℕ → M) :
    (∑ x ∈ s, ∑ y ∈ t1, ∑ z ∈ t2, ∑ w ∈ t3, g x y z w)
      = ∑ y ∈ t1, ∑ z ∈ t2, ∑ w ∈ t3, ∑ x ∈ s, g x y z w := by
  rw [Finset.sum_comm]
  exact Finset.sum_congr rfl fun y _ => sum_in2 s t2 t3 (fun x z w => g x y z w)

theorem sum_swap22 {M : Type} [AddCommMonoid M] (s1 s2 t1 t2 : Finset ℕ)
    (g : ℕ → ℕ → ℕ → ℕ → M) :
    (∑ x ∈ s1, ∑ y ∈ s2, ∑ z ∈ t1, ∑ w ∈ t2, g x y z w)
      = ∑ z ∈ t1, ∑ w ∈ t2, ∑ x ∈ s1, ∑ y ∈ s2, g x y z w := by
  have h1 : ∀ x, (∑ y ∈ s2, ∑ z ∈ t1, ∑ w ∈ t2, g x y z w)
      = ∑ z ∈ t1, ∑ w ∈ t2, ∑ y ∈ s2, g x y z w :=
    fun x => sum_in2 s2 t1 t2 (fun y z w => g x y z w)
  calc (∑ x ∈ s1, ∑ y ∈ s2, ∑ z ∈ t1, ∑ w ∈ t2, g x y z w)
      = ∑ x ∈ s1, ∑ z ∈ t1, ∑ w ∈ t2, ∑ y ∈ s2, g x y z w :=
        Finset.sum_congr rfl fun x _ => h1 x
    _ = ∑ z ∈ t1, ∑ w ∈ t2, ∑ x ∈ s1, ∑ y ∈ s2, g x y z w :=
        sum_in2 s1 t1 t2 (fun x z w => ∑ y ∈ s2, g x y z w)

theorem sum_swap23 {M : Type} [AddCommMonoid M] (s1 s2 t1 t2 t3 : Finset ℕ)
    (g : ℕ → ℕ → ℕ → ℕ → ℕ → M) :
    (∑ x ∈ s1, ∑ y ∈ s2, ∑ z ∈ t1, ∑ w ∈ t2, ∑ v ∈ t3, g x y z w v)
      = ∑ z ∈ t1, ∑ w ∈ t2, ∑ v ∈ t3, ∑ x ∈ s1, ∑ y ∈ s2, g x y z w v := by
  have h1 : ∀ x, (∑ y ∈ s2, ∑ z ∈ t1, ∑ w ∈ t2, ∑ v ∈ t3, g x y z w v)
      = ∑ z ∈ t1, ∑ w ∈ t2, ∑ v ∈ t3, ∑ y ∈ s2, g x y z w v :=
    fun x => sum_in3 s2 t1 t2 t3 (fun y z w v => g x y z w v)
  calc (∑ x ∈ s1, ∑ y ∈ s2, ∑ z ∈ t1, ∑ w ∈ t2, ∑ v ∈ t3, g x y z w v)
      = ∑ x ∈ s1, ∑ z ∈ t1, ∑ w ∈ t2, ∑ v ∈ t3, ∑ y ∈ s2, g x y z w v :=
        Finset.sum_congr rfl fun x _ => h1 x
    _ = ∑ z ∈ t1, ∑ w ∈ t2, ∑ v ∈ t3, ∑ x ∈ s1, ∑ y ∈ s2, g x y z w v :=
        sum_in3 s1 t1 t2 t3 (fun x z w v => ∑ y ∈ s2, g x y z w v)

omit [CommRing R] in
theorem chainOK_cons {m : NT R} {ms : List (NT R)}
    (h : chainOK (m :: ms)) : chainOK ms ∧ headDim m.nr ms = m.nr := by
  cases ms with
  | nil => exact ⟨trivial, rfl⟩
  | cons m' l => exact ⟨h.2, h.1.symm⟩

theorem ovlAux_eq (ms : List (NT R)) (hok : chainOK ms) :
    ∀ (E : ℕ → ℕ → R) (d : ℕ),
      ovlAux E d ms = ∑ b ∈ Finset.range (headDim d ms),
        ∑ b' ∈ Finset.range (headDim d ms), E b b' * rEnv ms b b' := by
  induction ms with
  | nil =>
      intro E d
      show (∑ b ∈ Finset.range d, E b b) = _
      refine (Finset.sum_congr rfl fun b hb => ?_).symm
      show (∑ b' ∈ Finset.range d, E b b' * if b = b' then 1 else 0) = E b b
      simp only [mul_ite, mul_one, mul_zero, Finset.sum_ite_eq]
      exact if_pos hb
  | cons m ms ih =>
      intro E d
      obtain ⟨hok', hhd⟩ := chainOK_cons hok
      show ovlAux (envStep E m) m.nr ms = _
      rw [ih hok' (envStep E m) m.nr, hhd]
      show (∑ c ∈ Finset.range m.nr, ∑ c' ∈ Finset.range m.nr,
          envStep E m c c' * rEnv ms c c') = _
      have step1 : (∑ c ∈ Finset.range m.nr, ∑ c' ∈ Finset.range m.nr,
          envStep E m c c' * rEnv ms c c')
          = ∑ c ∈ Finset.range m.nr, ∑ c' ∈ Finset.range m.nr,
              ∑ a ∈ Finset.range m.nl, ∑ a' ∈ Finset.range m.nl,
                ∑ i ∈ Finset.range m.nd,
                  E a a' * m.e a i c * m.e a' i c' * rEnv ms c c' := by
        refine Finset.sum_congr rfl fun c _ => Finset.sum_congr rfl fun c' _ => ?_
        rw [envStep, Finset.sum_mul]
        refine Finset.sum_congr rfl fun a _ => ?_
        rw [Finset.sum_mul]
        refine Finset.sum_congr rfl fun a' _ => ?_
        rw [Finset.sum_mul]
      rw [step1, sum_swap23]
      refine Finset.sum_congr rfl fun a _ => Finset.sum_congr rfl fun a' _ => ?_
      show (∑ i ∈ Finset.range m.nd, ∑ c ∈ Finset.range m.nr,
          ∑ c' ∈ Finset.range m.nr,
            E a a' * m.e a i c * m.e a' i c' * rEnv ms c c')
          = E a a' * rEnv (m :: ms) a a'
      show _ = E a a' * (∑ i ∈ Finset.range m.nd, ∑ c ∈ Finset.range m.nr,
          ∑ c' ∈ Finset.range m.nr, m.e a i c * m.e a' i c' * rEnv ms c c')
      rw [Finset.mul_sum]
      refine Finset.sum_congr rfl fun i _ => ?_
      rw [Finset.mul_sum]
      refine Finset.sum_congr rfl fun c _ => ?_
      rw [Finset.mul_sum]
      refine Finset.sum_congr rfl fun c' _ => ?_
      ring

omit [CommRing R] in
theorem lastR_replace_head (x m : NT R) (l : List (NT R)) (h : x.nr = m.nr) :
    lastR (x :: l) = lastR (m :: l) := by
  cases l with
  | nil => exact h
  | cons y l => rfl

omit [CommRing R] in
theorem chainOK_replace_head (x m : NT R) (l : List (NT R))
    (h : x.nr = m.nr) (hok : chainOK (m :: l)) : chainOK (x :: l) := by
  cases l with
  | nil => exact trivial
  | cons y l => exact ⟨h.trans hok.1, hok.2⟩

theorem sweep_sq_base (sv : NT R → SVDOut R) (M : NT R) (hR : M.nr = 1)
    (hc : svdContract sv M) :
    (∑ j ∈ Finset.range (sv M).k, (sv M).s j * (sv M).v j 0) *
      (∑ j ∈ Finset.range (sv M).k, (sv M).s j * (sv M).v j 0)
      = ∑ a ∈ Finset.range M.nl, rEnv [M] a a := by
  obtain ⟨hrec, hu, hv⟩ := hc
  have hv1 : ∀ j, j < (sv M).k → ∀ j', j' < (sv M).k →
      (sv M).v j 0 * (sv M).v j' 0 = if j = j' then 1 else 0 := by
    intro j hj j' hj'
    have h := hv j hj j' hj'
    rwa [hR, Finset.sum_range_one] at h
  have hL : (∑ j ∈ Finset.range (sv M).k, (sv M).s j * (sv M).v j 0) *
      (∑ j ∈ Finset.range (sv M).k, (sv M).s j * (sv M).v j 0)
      = ∑ j ∈ Finset.range (sv M).k, (sv M).s j * (sv M).s j := by
    rw [Finset.sum_mul_sum]
    refine Finset.sum_congr rfl fun j hj => ?_
    have hstep : ∀ j' ∈ Finset.range (sv M).k,
        (sv M).s j * (sv M).v j 0 * ((sv M).s j' * (sv M).v j' 0)
        = if j = j' then (sv M).s j * (sv M).s j' else 0 := by
      intro j' hj'
      rw [show (sv M).s j * (sv M).v j 0 * ((sv M).s j' * (sv M).v j' 0)
          = (sv M).s j * (sv M).s j' * ((sv M).v j 0 * (sv M).v j' 0) by ring,
        hv1 j (Finset.mem_range.mp hj) j' (Finset.mem_range.mp hj'),
        mul_ite, mul_one, mul_zero]
    rw [Finset.sum_congr rfl hstep, Finset.sum_ite_eq, if_pos hj]
  have hRHS : (∑ a ∈ Finset.range M.nl, rEnv [M] a a)
      = ∑ j ∈ Finset.range (sv M).k, (sv M).s j * (sv M).s j := by
    have e1 : ∀ a ∈ Finset.range M.nl, rEnv [M] a a
        = ∑ i ∈ Finset.range M.nd, M.e a i 0 * M.e a i 0 := by
      intro a _
      show (∑ i ∈ Finset.range M.nd, ∑ c ∈ Finset.range M.nr,
          ∑ c' ∈ Finset.range M.nr,
            M.e a i c * M.e a i c' * rEnv [] c c') = _
      rw [hR]
      refine Finset.sum_congr rfl fun i _ => ?_
      rw [Finset.sum_range_one, Finset.sum_range_one]
      show M.e a i 0 * M.e a i 0 * (if (0 : ℕ) = 0 then (1 : R) else 0) = _
      simp
    rw [Finset.sum_congr rfl e1]
    have e2 : ∀ a ∈ Finset.range M.nl, (∑ i ∈ Finset.range M.nd,
        M.e a i 0 * M.e a i 0)
        = ∑ i ∈ Finset.range M.nd, ∑ j ∈ Finset.range (sv M).k,
            ∑ j' ∈ Finset.range (sv M).k,
              ((sv M).u a i j * (sv M).s j * (sv M).v j 0) *
              ((sv M).u a i j' * (sv M).s j' * (sv M).v j' 0) := by
      intro a ha
      refine Finset.sum_congr rfl fun i hi => ?_
      rw [hrec a (Finset.mem_range.mp ha) i (Finset.mem_range.mp hi) 0
        (by omega), Finset.sum_mul_sum]
    rw [Finset.sum_congr rfl e2, sum_swap22]
    have e3 : ∀ j ∈ Finset.range (sv M).k, ∀ j' ∈ Finset.range (sv M).k,
        (∑ a ∈ Finset.range M.nl, ∑ i ∈ Finset.range M.nd,
          ((sv M).u a i j * (sv M).s j * (sv M).v j 0) *
          ((sv M).u a i j' * (sv M).s j' * (sv M).v j' 0))
        = if j = j' then ((sv M).s j * (sv M).v j 0) *
            ((sv M).s j' * (sv M).v j' 0) else 0 := by
      intro j hj j' hj'
      have factor : (∑ a ∈ Finset.range M.nl, ∑ i ∈ Finset.range M.nd,
          ((sv M).u a i j * (sv M).s j * (sv M).v j 0) *
          ((sv M).u a i j' * (sv M).s j' * (sv M).v j' 0))
          = (∑ a ∈ Finset.range M.nl, ∑ i ∈ Finset.range M.nd,
              (sv M).u a i j * (sv M).u a i j') *
            (((sv M).s j * (sv M).v j 0) * ((sv M).s j' * (sv M).v j' 0)) := by
        rw [Finset.sum_mul]
        refine Finset.sum_congr rfl fun a _ => ?_
        rw [Finset.sum_mul]
        refine Finset.sum_congr rfl fun i _ => ?_
        ring
      rw [factor, hu j (Finset.mem_range.mp hj) j' (Finset.mem_range.mp hj'),
        ite_mul, one_mul, zero_mul]
    calc (∑ j ∈ Finset.range (sv M).k, ∑ j' ∈ Finset.range (sv M).k,
          ∑ a ∈ Finset.range M.nl, ∑ i ∈ Finset.range M.nd,
            ((sv M).u a i j * (sv M).s j * (sv M).v j 0) *
            ((sv M).u a i j' * (sv M).s j' * (sv M).v j' 0))
        = ∑ j ∈ Finset.range (sv M).k, ∑ j' ∈ Finset.range (sv M).k,
            if j = j' then ((sv M).s j * (sv M).v j 0) *
              ((sv M).s j' * (sv M).v j' 0) else 0 :=
          Finset.sum_congr rfl fun j hj =>
            Finset.sum_congr rfl fun j' hj' => e3 j hj j' hj'
      _ = ∑ j ∈ Finset.range (sv M).k, (sv M).s j * (sv M).s j := by
          refine Finset.sum_congr rfl fun j hj => ?_
          rw [Finset.sum_ite_eq, if_pos hj,
            show ((sv M).s j * (sv M).v j 0) * ((sv M).s j * (sv M).v j 0)
              = (sv M).s j * (sv M).s j * ((sv M).v j 0 * (sv M).v j 0)
              by ring,
            hv1 j (Finset.mem_range.mp hj) j (Finset.mem_range.mp hj),
            if_pos rfl, mul_one]
  rw [hL, hRHS]

theorem sweep_transfer (sv : NT R → SVDOut R) (M m : NT R)
    (rest' : List (NT R)) (hMr : M.nr = m.nl) (hc : svdContract sv M) :
    (∑ j ∈ Finset.range (sv M).k, rEnv (mkM2 sv M m :: rest') j j)
      = ∑ a ∈ Finset.range M.nl, rEnv (M :: m :: rest') a a := by
  obtain ⟨hrec, hu, _⟩ := hc
  have hLHS : (∑ j ∈ Finset.range (sv M).k, rEnv (mkM2 sv M m :: rest') j j)
      = ∑ j ∈ Finset.range (sv M).k, ∑ b ∈ Finset.range m.nl,
          ∑ b' ∈ Finset.range m.nl,
            (sv M).s j * (sv M).s j * ((sv M).v j b * (sv M).v j b') *
              rEnv (m :: rest') b b' := by
    refine Finset.sum_congr rfl fun j _ => ?_
    have expand : ∀ i c c', (mkM2 sv M m).e j i c * (mkM2 sv M m).e j i c' *
        rEnv rest' c c'
        = ∑ b ∈ Finset.range m.nl, ∑ b' ∈ Finset.range m.nl,
            (sv M).s j * (sv M).s j * ((sv M).v j b * (sv M).v j b') *
              (m.e b i c * m.e b' i c' * rEnv rest' c c') := by
      intro i c c'
      show ((sv M).s j * ∑ b ∈ Finset.range m.nl, (sv M).v j b * m.e b i c) *
          ((sv M).s j * ∑ b' ∈ Finset.range m.nl, (sv M).v j b' * m.e b' i c')
          * rEnv rest' c c' = _
      rw [show ((sv M).s j * ∑ b ∈ Finset.range m.nl, (sv M).v j b * m.e b i c)
          * ((sv M).s j *
              ∑ b' ∈ Finset.range m.nl, (sv M).v j b' * m.e b' i c')
          * rEnv rest' c c'
          = ((∑ b ∈ Finset.range m.nl, (sv M).v j b * m.e b i c) *
              ∑ b' ∈ Finset.range m.nl, (sv M).v j b' * m.e b' i c') *
            ((sv M).s j * (sv M).s j * rEnv rest' c c') by ring,
        Finset.sum_mul_sum, Finset.sum_mul]
      refine Finset.sum_congr rfl fun b _ => ?_
      rw [Finset.sum_mul]
      refine Finset.sum_congr rfl fun b' _ => ?_
      ring
    show (∑ i ∈ Finset.range m.nd, ∑ c ∈ Finset.range m.nr,
        ∑ c' ∈ Finset.range m.nr, (mkM2 sv M m).e j i c *
          (mkM2 sv M m).e j i c' * rEnv rest' c c') = _
    rw [Finset.sum_congr rfl fun i _ => Finset.sum_congr rfl fun c _ =>
      Finset.sum_congr rfl fun c' _ => expand i c c']
    rw [(sum_swap23 (Finset.range m.nl) (Finset.range m.nl)
      (Finset.range m.nd) (Finset.range m.nr) (Finset.range m.nr)
      (fun b b' i c c' => (sv M).s j * (sv M).s j *
        ((sv M).v j b * (sv M).v j b') *
        (m.e b i c * m.e b' i c' * rEnv rest' c c'))).symm]
    refine Finset.sum_congr rfl fun b _ => Finset.sum_congr rfl fun b' _ => ?_
    show (∑ i ∈ Finset.range m.nd, ∑ c ∈ Finset.range m.nr,
        ∑ c' ∈ Finset.range m.nr, (sv M).s j * (sv M).s j *
          ((sv M).v j b * (sv M).v j b') *
          (m.e b i c * m.e b' i c' * rEnv rest' c c')) = _
    show _ = (sv M).s j * (sv M).s j * ((sv M).v j b * (sv M).v j b') *
        ∑ i ∈ Finset.range m.nd, ∑ c ∈ Finset.range m.nr,
          ∑ c' ∈ Finset.range m.nr, m.e b i c * m.e b' i c' * rEnv rest' c c'
    rw [Finset.mul_sum]
    refine Finset.sum_congr rfl fun i _ => ?_
    rw [Finset.mul_sum]
    refine Finset.sum_congr rfl fun c _ => ?_
    rw [Finset.mul_sum]
  have hRHS : (∑ a ∈ Finset.range M.nl, rEnv (M :: m :: rest') a a)
      = ∑ j ∈ Finset.range (sv M).k, ∑ b ∈ Finset.range m.nl,
          ∑ b' ∈ Finset.range m.nl,
            (sv M).s j * (sv M).s j * ((sv M).v j b * (sv M).v j b') *
              rEnv (m :: rest') b b' := by
    have e1 : ∀ a ∈ Finset.range M.nl, rEnv (M :: m :: rest') a a
        = ∑ i ∈ Finset.range M.nd, ∑ b ∈ Finset.range m.nl,
            ∑ b' ∈ Finset.range m.nl, ∑ j ∈ Finset.range (sv M).k,
              ∑ j' ∈ Finset.range (sv M).k,
                ((sv M).u a i j * (sv M).s j * (sv M).v j b) *
                ((sv M).u a i j' * (sv M).s j' * (sv M).v j' b') *
                rEnv (m :: rest') b b' := by
      intro a ha
      show (∑ i ∈ Finset.range M.nd, ∑ b ∈ Finset.range M.nr,
          ∑ b' ∈ Finset.range M.nr, M.e a i b * M.e a i b' *
            rEnv (m :: rest') b b') = _
      rw [hMr]
      refine Finset.sum_congr rfl fun i hi => Finset.sum_congr rfl fun b hb =>
        Finset.sum_congr rfl fun b' hb' => ?_
      rw [hrec a (Finset.mem_range.mp ha) i (Finset.mem_range.mp hi) b
          (hMr ▸ Finset.mem_range.mp hb),
        hrec a (Finset.mem_range.mp ha) i (Finset.mem_range.mp hi) b'
          (hMr ▸ Finset.mem_range.mp hb'),
        Finset.sum_mul_sum, Finset.sum_mul]
      refine Finset.sum_congr rfl fun j _ => ?_
      rw [Finset.sum_mul]
    rw [Finset.sum_congr rfl e1]
    have e2 : ∀ a ∈ Finset.range M.nl, (∑ i ∈ Finset.range M.nd,
        ∑ b ∈ Finset.range m.nl, ∑ b' ∈ Finset.range m.nl,
          ∑ j ∈ Finset.range (sv M).k, ∑ j' ∈ Finset.range (sv M).k,
            ((sv M).u a i j * (sv M).s j * (sv M).v j b) *
            ((sv M).u a i j' * (sv M).s j' * (sv M).v j' b') *
            rEnv (m :: rest') b b')
        = ∑ i ∈ Finset.range M.nd, ∑ j ∈ Finset.range (sv M).k,
            ∑ j' ∈ Finset.range (sv M).k, ∑ b ∈ Finset.range m.nl,
              ∑ b' ∈ Finset.range m.nl,
                ((sv M).u a i j * (sv M).s j * (sv M).v j b) *
                ((sv M).u a i j' * (sv M).s j' * (sv M).v j' b') *
                rEnv (m :: rest') b b' :=
      fun a _ => Finset.sum_congr rfl fun i _ =>
        sum_swap22 (Finset.range m.nl) (Finset.range m.nl)
          (Finset.range (sv M).k) (Finset.range (sv M).k) _
    rw [Finset.sum_congr rfl e2,
      sum_swap22 (Finset.range M.nl) (Finset.range M.nd)
        (Finset.range (sv M).k) (Finset.range (sv M).k)
        (fun a i j j' => ∑ b ∈ Finset.range m.nl, ∑ b' ∈ Finset.range m.nl,
          ((sv M).u a i j * (sv M).s j * (sv M).v j b) *
          ((sv M).u a i j' * (sv M).s j' * (sv M).v j' b') *
          rEnv (m :: rest') b b')]
    refine (Finset.sum_congr rfl fun j hj => ?_)
    have e3 : ∀ j' ∈ Finset.range (sv M).k,
        (∑ a ∈ Finset.range M.nl, ∑ i ∈ Finset.range M.nd,
          ∑ b ∈ Finset.range m.nl, ∑ b' ∈ Finset.range m.nl,
            ((sv M).u a i j * (sv M).s j * (sv M).v j b) *
            ((sv M).u a i j' * (sv M).s j' * (sv M).v j' b') *
            rEnv (m :: rest') b b')
        = (if j = j' then (1 : R) else 0) *
            ∑ b ∈ Finset.range m.nl, ∑ b' ∈ Finset.range m.nl,
              ((sv M).s j * (sv M).v j b) * ((sv M).s j' * (sv M).v j' b') *
              rEnv (m :: rest') b b' := by
      intro j' hj'
      rw [← hu j (Finset.mem_range.mp hj) j' (Finset.mem_range.mp hj'),
        Finset.sum_mul]
      refine Finset.sum_congr rfl fun a _ => ?_
      rw [Finset.sum_mul]
      refine Finset.sum_congr rfl fun i _ => ?_
      rw [Finset.mul_sum]
      refine Finset.sum_congr rfl fun b _ => ?_
      rw [Finset.mul_sum]
      refine Finset.sum_congr rfl fun b' _ => ?_
      ring
    rw [Finset.sum_congr rfl e3]
    have e4 : ∀ j' ∈ Finset.range (sv M).k,
        (if j = j' then (1 : R) else 0) *
          (∑ b ∈ Finset.range m.nl, ∑ b' ∈ Finset.range m.nl,
            ((sv M).s j * (sv M).v j b) * ((sv M).s j' * (sv M).v j' b') *
            rEnv (m :: rest') b b')
        = if j = j' then (∑ b ∈ Finset.range m.nl,
            ∑ b' ∈ Finset.range m.nl,
              ((sv M).s j * (sv M).v j b) * ((sv M).s j' * (sv M).v j' b') *
              rEnv (m :: rest') b b') else 0 := by
      intro j' _
      rw [ite_mul, one_mul, zero_mul]
    rw [Finset.sum_congr rfl e4, Finset.sum_ite_eq, if_pos hj]
    refine Finset.sum_congr rfl fun b _ => Finset.sum_congr rfl fun b' _ => ?_
    ring
  rw [hLHS, hRHS]

theorem sweep_sq (sv : NT R → SVDOut R) :
    ∀ (rest : List (NT R)) (M : NT R),
      chainOK (M :: rest) → lastR (M :: rest) = 1 →
      (∀ X ∈ sweepCalls sv M rest, svdContract sv X) →
      sweepAux sv M rest * sweepAux sv M rest
        = ∑ a ∈ Finset.range M.nl, rEnv (M :: rest) a a := by
  intro rest
  induction rest with
  | nil =>
      intro M _ hR hsv
      exact sweep_sq_base sv M hR (hsv M (by simp [sweepCalls]))
  | cons m rest' ih =>
      intro M hok hR hsv
      have hMr : M.nr = m.nl := hok.1
      have hc : svdContract sv M := hsv M (by
        show M ∈ M :: sweepCalls sv (mkM2 sv M m) rest'
        simp)
      have hok2 : chainOK (mkM2 sv M m :: rest') :=
        chainOK_replace_head _ m rest' rfl hok.2
      have hR2 : lastR (mkM2 sv M m :: rest') = 1 := by
        rw [lastR_replace_head (mkM2 sv M m) m rest' rfl]
        exact hR
      have hsv2 : ∀ X ∈ sweepCalls sv (mkM2 sv M m) rest',
          svdContract sv X := by
        intro X hX
        refine hsv X ?_
        show X ∈ M :: sweepCalls sv (mkM2 sv M m) rest'
        exact List.mem_cons_of_mem _ hX
      show sweepAux sv (mkM2 sv M m) rest' * sweepAux sv (mkM2 sv M m) rest'
          = _
      rw [ih (mkM2 sv M m) hok2 hR2 hsv2]
      exact sweep_transfer sv M m rest' hMr hc

/-- C5: for every non-empty chain with dimension-1 boundary bonds, the overlap
of the chain with itself equals the square of its norm query, the substrate
decomposition being modelled from the spec as an exact svd (reconstruction
plus orthonormal left columns and right rows) on every tensor the norm sweep
feeds to it; both functions act on a merged copy and leave the chain itself
untouched in this value-semantics model. -/
theorem c5_overlap_norm (sv : NT R → SVDOut R) (ch : NChain R)
    (m0 : NT R) (rest : List (NT R)) (hms : nMerge ch = m0 :: rest)
    (hok : chainOK (nMerge ch)) (hL : headL (nMerge ch) = 1)
    (hR : lastR (nMerge ch) = 1)
    (hsv : ∀ M ∈ normCalls sv ch, svdContract sv M) :
    overlapSelf ch = normVal sv ch ^ 2 := by
  have hok' : chainOK (m0 :: rest) := hms ▸ hok
  have hL' : m0.nl = 1 := by rw [hms] at hL; exact hL
  have hR' : lastR (m0 :: rest) = 1 := by rw [hms] at hR; exact hR
  have hsv' : ∀ M ∈ sweepCalls sv m0 rest, svdContract sv M := by
    intro M hM
    refine hsv M ?_
    show M ∈ normCalls sv ch
    simp only [normCalls, hms]
    exact hM
  have hovl : overlapSelf ch = rEnv (m0 :: rest) 0 0 := by
    show ovl (nMerge ch) = _
    rw [hms]
    show ovlAux (fun a a' => if a = a' then (1 : R) else 0) 1 (m0 :: rest) = _
    rw [ovlAux_eq (m0 :: rest) hok' _ 1,
      show headDim 1 (m0 :: rest) = 1 from hL', Finset.sum_range_one,
      Finset.sum_range_one]
    simp
  have hnv : normVal sv ch = sweepAux sv m0 rest := by
    show (match nMerge ch with
      | [] => (1 : R)
      | m :: rest => sweepAux sv m rest) = _
    rw [hms]
  rw [hovl, hnv, pow_two, sweep_sq sv rest m0 hok' hR' hsv', hL',
    Finset.sum_range_one]

/-- C5 witness: the overlap of the concrete two-qubit product chain with
itself equals the square of its norm query under the concrete rational
decomposition. -/
theorem c5_witness : overlapSelf ch5 = normVal svW ch5 ^ 2 :=
  c5_overlap_norm svW ch5 nw1 [nw2] rfl ⟨rfl, trivial⟩ rfl rfl (by
    intro M hM
    have h2 : M = nw1 ∨ M = mkM2 svW nw1 nw2 := by
      simpa [normCalls, nMerge, ch5, sweepCalls] using hM
    rcases h2 with h | h <;> subst h
    · unfold svdContract
      decide
    · unfold svdContract
      decide)

end NumericLemmas

end HamiltonianMPS
